import Mathlib

/-!
Verification development for the subtitle splitter core.

The program parses SRT caption text into entries, lets an external service
reformat the text, redistributes durations over split chunks, and serializes
the entries back to SRT text.  We embed the relevant code over lists of
characters, with JS numbers modelled as exact integers (all values in play
are integer valued) and the JS NaN modelled by Option.
-/

namespace SrtSplit

/-- JS whitespace class, ASCII part, as used by String.prototype.trim and
by the regex class backslash-s.  The inputs in scope are ASCII. -/
def isWs (c : Char) : Bool :=
  c = ' ' || c = '\t' || c = '\n' || c = '\r' || c = Char.ofNat 11 || c = Char.ofNat 12

/-- JS String.prototype.trim on a character list. -/
def trimL (l : List Char) : List Char :=
  ((l.dropWhile isWs).reverse.dropWhile isWs).reverse

/-- The replace of CRLF by LF, global, non overlapping, left to right,
embedding content.replace of the CRLF regex in parseSrt. -/
def replaceCRLF : List Char → List Char
  | '\r' :: '\n' :: rest => '\n' :: replaceCRLF rest
  | c :: rest => c :: replaceCRLF rest
  | [] => []

/-- Split on every separator character, keeping empty pieces, a la the JS
split with a single character regex class. -/
def splitCh (sep : Char → Bool) : List Char → List (List Char)
  | [] => [[]]
  | c :: rest =>
    if sep c then [] :: splitCh sep rest
    else
      match splitCh sep rest with
      | [] => [[c]]
      | r :: rs => (c :: r) :: rs

/-- Split on newline characters. -/
def splitNl : List Char → List (List Char) := splitCh (fun c => c = '\n')

/-- Split on colon or comma, embedding time.split in timeToMs. -/
def splitPunct : List Char → List (List Char) := splitCh (fun c => c = ':' || c = ',')

/-- Index of the last newline in a list, if any. -/
def lastNlIdx (run : List Char) : Option Nat :=
  (run.reverse.findIdx? (fun c => c = '\n')).map (fun k => run.length - 1 - k)

/-- Length of the leftmost match of the blank line separator regex,
newline blank-run newline, at the head of the list: the star is greedy and
backtracks to the last newline inside the whitespace run. -/
def sepLen (l : List Char) : Option Nat :=
  match l with
  | '\n' :: rest =>
    match lastNlIdx (rest.takeWhile isWs) with
    | some j => some (j + 2)
    | none => none
  | _ => none

theorem sepLen_some {l : List Char} {k : Nat} (h : sepLen l = some k) :
    2 ≤ k ∧ 1 ≤ l.length := by
  unfold sepLen at h
  split at h
  · split at h
    · next j hj =>
      simp only [Option.some.injEq] at h
      simp only [List.length_cons]
      omega
    · simp at h
  · simp at h

/-- Worker for the JS split on the blank line separator regex: scan left to
right, cutting at every leftmost separator match.  The first argument is
fuel, a standard device to keep the recursion structural so that the kernel
can evaluate the function; any fuel above the length of the list gives the
same result. -/
def splitGoAux : Nat → List Char → List Char → List (List Char)
  | 0, _, acc => [acc.reverse]
  | fuel + 1, l, acc =>
    match sepLen l with
    | some k => acc.reverse :: splitGoAux fuel (l.drop k) []
    | none =>
      match l with
      | [] => [acc.reverse]
      | c :: rest => splitGoAux fuel rest (c :: acc)

theorem splitGoAux_irrel :
    ∀ f1 f2 l acc, l.length < f1 → l.length < f2 →
      splitGoAux f1 l acc = splitGoAux f2 l acc := by
  intro f1
  induction f1 with
  | zero => intro f2 l acc h1 _; omega
  | succ g ih =>
    intro f2 l acc h1 h2
    cases f2 with
    | zero => omega
    | succ g2 =>
      simp only [splitGoAux]
      cases hsep : sepLen l with
      | some k =>
        have hk := sepLen_some hsep
        simp only []
        have hd : (l.drop k).length < g := by
          simp only [List.length_drop]; omega
        have hd2 : (l.drop k).length < g2 := by
          simp only [List.length_drop]; omega
        rw [ih g2 (l.drop k) [] hd hd2]
      | none =>
        cases l with
        | nil => rfl
        | cons c rest =>
          simp only [List.length_cons] at h1 h2
          exact ih g2 rest (c :: acc) (by omega) (by omega)

def splitGo (l : List Char) (acc : List Char) : List (List Char) :=
  splitGoAux (l.length + 1) l acc

/-- The defining recurrence of splitGo, stated over the fuel free form. -/
theorem splitGo_eq (l : List Char) (acc : List Char) :
    splitGo l acc =
      match sepLen l with
      | some k => acc.reverse :: splitGo (l.drop k) []
      | none =>
        match l with
        | [] => [acc.reverse]
        | c :: rest => splitGo rest (c :: acc) := by
  have hstep : splitGoAux (l.length + 1) l acc =
      match sepLen l with
      | some k => acc.reverse :: splitGoAux l.length (l.drop k) []
      | none =>
        match l with
        | [] => [acc.reverse]
        | c :: rest => splitGoAux l.length rest (c :: acc) := rfl
  show splitGoAux (l.length + 1) l acc = _
  rw [hstep]
  cases hsep : sepLen l with
  | some k =>
    have hk := sepLen_some hsep
    show _ :: splitGoAux l.length (l.drop k) [] = _ :: splitGo (l.drop k) []
    rw [splitGoAux_irrel l.length ((l.drop k).length + 1) (l.drop k) []
      (by simp only [List.length_drop]; omega) (by omega)]
    rfl
  | none =>
    cases l with
    | nil => rfl
    | cons c rest =>
      show splitGoAux (rest.length + 1) rest (c :: acc) = _
      rfl

/-- JS split on the blank line separator regex. -/
def splitSep (l : List Char) : List (List Char) := splitGo l []

/-- Numeric value of a digit character. -/
def digVal (c : Char) : Nat := c.toNat - 48

/-- Value of a list of digit characters read in base ten. -/
def natOfDigits (l : List Char) : Nat := l.foldl (fun a c => 10 * a + digVal c) 0

/-- JS parseInt with radix ten: skip leading whitespace, optional sign, then
the maximal run of digits; NaN, modelled as none, when there is no digit.
Trailing junk after the digits is ignored. -/
def parseIntJS (s : List Char) : Option Int :=
  let t := s.dropWhile isWs
  let p : Int × List Char :=
    if t.head? = some '-' then (-1, t.tail)
    else if t.head? = some '+' then (1, t.tail)
    else (1, t)
  let ds := p.2.takeWhile Char.isDigit
  if ds.isEmpty then none else some (p.1 * (natOfDigits ds : Nat))

/-- The character of a digit value. -/
def digitCh (n : Nat) : Char := Char.ofNat (48 + n)

/-- Fueled worker for the decimal rendering of a natural number; fuel keeps
the recursion structural so that the kernel can evaluate it. -/
def natToCharsAux : Nat → Nat → List Char
  | 0, _ => []
  | fuel + 1, n =>
    if n < 10 then [digitCh n]
    else natToCharsAux fuel (n / 10) ++ [digitCh (n % 10)]

theorem natToCharsAux_irrel :
    ∀ f1 f2 n, n < f1 → n < f2 → natToCharsAux f1 n = natToCharsAux f2 n := by
  intro f1
  induction f1 with
  | zero => intro f2 n h1 _; omega
  | succ g ih =>
    intro f2 n h1 h2
    cases f2 with
    | zero => omega
    | succ g2 =>
      simp only [natToCharsAux]
      by_cases hn : n < 10
      · simp [hn]
      · simp only [if_neg hn]
        rw [ih g2 (n / 10) (by omega) (by omega)]

/-- Decimal rendering of a natural number, embedding the JS number to
string conversion for integer values. -/
def natToChars (n : Nat) : List Char := natToCharsAux (n + 1) n

/-- The defining recurrence of natToChars. -/
theorem natToChars_eq (n : Nat) :
    natToChars n =
      if n < 10 then [digitCh n]
      else natToChars (n / 10) ++ [digitCh (n % 10)] := by
  show natToCharsAux (n + 1) n = _
  rw [natToCharsAux]
  by_cases hn : n < 10
  · simp [hn]
  · simp only [if_neg hn]
    rw [natToCharsAux_irrel n (n / 10 + 1) (n / 10) (by omega) (by omega)]
    rfl

/-- Decimal rendering of an integer. -/
def intToChars (i : Int) : List Char :=
  if i < 0 then '-' :: natToChars (-i).toNat else natToChars i.toNat

/-- JS String.prototype.padStart with the zero character. -/
def padZeros (k : Nat) (l : List Char) : List Char :=
  List.replicate (k - l.length) '0' ++ l

/-- Embedding of msToTime from src/services/srtService.ts.  Math.floor is
the real floor, fdiv on integers; the JS remainder truncates, tmod. -/
def msToTime (ms : Int) : List Char :=
  padZeros 2 (intToChars ((ms.fdiv 1000).fdiv 3600)) ++
    ':' :: padZeros 2 (intToChars (((ms.fdiv 1000).tmod 3600).fdiv 60)) ++
    ':' :: padZeros 2 (intToChars ((ms.fdiv 1000).tmod 60)) ++
    ',' :: padZeros 3 (intToChars (ms.tmod 1000))

/-- Embedding of timeToMs from src/services/srtService.ts: split on colon
and comma, parseInt the first four fields, combine.  A missing field is
parseInt of undefined, which is NaN, hence none; NaN propagates through
the arithmetic, so the result is none as soon as one field fails. -/
def timeToMs (time : List Char) : Option Int :=
  let parts := splitPunct time
  match parseIntJS (parts.getD 0 []), parseIntJS (parts.getD 1 []),
        parseIntJS (parts.getD 2 []), parseIntJS (parts.getD 3 []) with
  | some hours, some minutes, some seconds, some milliseconds =>
    some (hours * 3600000 + minutes * 60000 + seconds * 1000 + milliseconds)
  | _, _, _, _ => none

/-- Match the fixed timestamp pattern, two digits, colon, two digits,
colon, two digits, comma, three digits, at the head of the list, returning
the matched characters and the rest. -/
def matchTS : List Char → Option (List Char × List Char)
  | c0 :: c1 :: ':' :: c2 :: c3 :: ':' :: c4 :: c5 :: ',' :: c6 :: c7 :: c8 :: rest =>
    if c0.isDigit && c1.isDigit && c2.isDigit && c3.isDigit && c4.isDigit &&
       c5.isDigit && c6.isDigit && c7.isDigit && c8.isDigit
    then some ([c0, c1, ':', c2, c3, ':', c4, c5, ',', c6, c7, c8], rest)
    else none
  | _ => none

/-- Strip an exact literal from the head of a list. -/
def dropLit : List Char → List Char → Option (List Char)
  | [], s => some s
  | p :: ps, c :: cs => if c = p then dropLit ps cs else none
  | _ :: _, [] => none

/-- Try the timing line regex of parseSrt at the current position:
timestamp, star of whitespace, the arrow, star of whitespace, timestamp.
The two stars are greedy; no backtracking arises because the arrow and the
timestamps start with non whitespace characters. -/
def tryTimeAt (l : List Char) : Option (List Char × List Char) := do
  let (g1, r1) ← matchTS l
  let r2 ← dropLit ['-', '-', '>'] (r1.dropWhile isWs)
  let (g2, _) ← matchTS (r2.dropWhile isWs)
  pure (g1, g2)

/-- Regex search: leftmost position where the timing pattern matches,
embedding the JS string match in parseSrt. -/
def searchTime : List Char → Option (List Char × List Char)
  | [] => none
  | c :: rest => tryTimeAt (c :: rest) <|> searchTime rest

/-- The caption entry record of src/services/srtService.ts.  The id and the
two times are JS numbers holding integer values; text is the raw text. -/
structure SrtEntry where
  id : Int
  startTime : Int
  endTime : Int
  text : List Char
deriving DecidableEq, Repr

/-- One iteration of the block loop of parseSrt: trim the block, split into
lines, require at least two lines, parseInt the first, regex match the
second, and join the remaining lines back with newlines.  The timestamp
groups always parse, so the getD default is never taken. -/
def parseBlock (block : List Char) : Option SrtEntry :=
  match splitNl (trimL block) with
  | l0 :: l1 :: rest =>
    match parseIntJS l0, searchTime l1 with
    | some id, some (g1, g2) =>
      some ⟨id, (timeToMs g1).getD 0, (timeToMs g2).getD 0, List.intercalate ['\n'] rest⟩
    | _, _ => none
  | _ => none

/-- Embedding of parseSrt from src/services/srtService.ts: normalize line
endings, trim, split on blank line separators, and keep the blocks that
pass the structural checks. -/
def parseSrt (srtContent : List Char) : List SrtEntry :=
  (splitSep (trimL (replaceCRLF srtContent))).filterMap parseBlock

/-- One rendered block of stringifySrt. -/
def entryBlock (e : SrtEntry) : List Char :=
  intToChars e.id ++ '\n' :: msToTime e.startTime ++
    ' ' :: '-' :: '-' :: '>' :: ' ' :: msToTime e.endTime ++ '\n' :: e.text

/-- Embedding of stringifySrt from src/services/srtService.ts. -/
def stringifySrt (entries : List SrtEntry) : List Char :=
  List.intercalate ['\n', '\n'] (entries.map entryBlock)

/-! ## Split duration reallocator

Embedding of the per decision body of handleTransform in the application
component: the processed text of one entry is either a single string, an
array of chunk strings, or something else entirely; the reallocator turns
it into one or more fresh entries. -/

/-- The text field of one processed entry coming back from the external
service: a string, an array of strings, or an invalid value. -/
inductive DecisionText where
  | str (s : List Char)
  | arr (chunks : List (List Char))
  | other
deriving DecidableEq

/-- Weight of a chunk: its length with the newline characters removed,
embedding chunk.replace of the newline regex followed by length. -/
def chunkWeight (c : List Char) : Nat :=
  (c.filter (fun ch => ch ≠ '\n')).length

/-- JS Math.round applied to the exact rational num / den, for a positive
den: the floor of the rational plus one half.  The source computes the
share in floating point; at every input used in this development the
floating point result agrees with the exact rational one. -/
def jsRound (num den : Int) : Int := (2 * num + den).fdiv (2 * den)

/-- The proportional walk of the reallocator: every chunk except the last
gets a rounded share of the total duration, the last chunk gets the exact
original end time. -/
def allocProp (endMs totalDuration totalLength : Int) :
    Int → Int → List (List Char) → List SrtEntry × Int
  | _, newId, [] => ([], newId)
  | cursor, newId, [c] => ([⟨newId, cursor, endMs, c⟩], newId + 1)
  | cursor, newId, c :: c2 :: rest =>
    let share := jsRound (totalDuration * (chunkWeight c : Int)) totalLength
    let p := allocProp endMs totalDuration totalLength (cursor + share) (newId + 1) (c2 :: rest)
    (⟨newId, cursor, cursor + share, c⟩ :: p.1, p.2)

/-- The degenerate equal split walk of the reallocator: every chunk except
the last gets the floored equal share, the last chunk gets the exact
original end time. -/
def allocEq (endMs chunkDuration : Int) :
    Int → Int → List (List Char) → List SrtEntry × Int
  | _, newId, [] => ([], newId)
  | startT, newId, [c] => ([⟨newId, startT, endMs, c⟩], newId + 1)
  | startT, newId, c :: c2 :: rest =>
    let p := allocEq endMs chunkDuration (startT + chunkDuration) (newId + 1) (c2 :: rest)
    (⟨newId, startT, startT + chunkDuration, c⟩ :: p.1, p.2)

/-- Embedding of the body of the decision loop of handleTransform for one
original entry and one decision, threading the fresh id counter.  The
guard of the degenerate branch, floored share or zero, is the identity on
integers, so the share is just the floored quotient. -/
def processEntry (originalEntry : SrtEntry) (decision : DecisionText) (newId : Int) :
    List SrtEntry × Int :=
  match decision with
  | .arr chunks =>
    let textChunks := chunks.filter (fun c => 0 < (trimL c).length)
    if textChunks.length < 2 then
      let joined := List.intercalate [' '] textChunks
      let combinedText := if joined.isEmpty then originalEntry.text else joined
      ([⟨newId, originalEntry.startTime, originalEntry.endTime, combinedText⟩], newId + 1)
    else
      let totalDuration := originalEntry.endTime - originalEntry.startTime
      let totalLength : Int := ((textChunks.map chunkWeight).sum : Nat)
      if 0 < totalLength ∧ 0 < totalDuration then
        allocProp originalEntry.endTime totalDuration totalLength
          originalEntry.startTime newId textChunks
      else
        allocEq originalEntry.endTime (totalDuration.fdiv textChunks.length)
          originalEntry.startTime newId textChunks
  | .str s => ([⟨newId, originalEntry.startTime, originalEntry.endTime, s⟩], newId + 1)
  | .other => ([{ originalEntry with id := newId }], newId + 1)

/-! ## Variant parser

Embedding of the line oriented parser of src/src/services/srtService.ts,
which stores the fields as raw strings and throws when a non empty input
yields no entries. -/

/-- The entry record of the variant parser: all fields are raw strings. -/
structure SrtEntryAlt where
  id : List Char
  startTime : List Char
  endTime : List Char
  text : List Char
deriving DecidableEq

/-- Split on the optional carriage return followed by newline regex. -/
def splitLinesAlt : List Char → List (List Char)
  | [] => [[]]
  | '\r' :: '\n' :: rest => [] :: splitLinesAlt rest
  | '\n' :: rest => [] :: splitLinesAlt rest
  | c :: rest =>
    match splitLinesAlt rest with
    | [] => [[c]]
    | r :: rs => (c :: r) :: rs

/-- The timing line regex of the variant parser has single literal spaces
around the arrow instead of whitespace stars. -/
def tryTimeAtAlt (l : List Char) : Option (List Char × List Char) := do
  let (g1, r1) ← matchTS l
  let r2 ← dropLit [' ', '-', '-', '>', ' '] r1
  let (g2, _) ← matchTS r2
  pure (g1, g2)

def searchTimeAlt : List Char → Option (List Char × List Char)
  | [] => none
  | c :: rest => tryTimeAtAlt (c :: rest) <|> searchTimeAlt rest

/-- The mutable scan state of the variant parser. -/
structure AltState where
  curId : Option (List Char)
  curStart : Option (List Char)
  curEnd : Option (List Char)
  textLines : List (List Char)
  entries : List SrtEntryAlt

/-- One line step of the variant parser loop.  A set id field is a non
empty digit string, so its truthiness test is its presence. -/
def altStep (st : AltState) (line : List Char) : AltState :=
  match st.curId with
  | none =>
    if line ≠ [] ∧ line.all Char.isDigit then { st with curId := some line } else st
  | some _ =>
    match st.curStart with
    | none =>
      match searchTimeAlt line with
      | some (g1, g2) => { st with curStart := some g1, curEnd := some g2 }
      | none => { st with curId := none, curStart := none, curEnd := none }
    | some _ =>
      if (trimL line).length ≠ 0 then
        { st with textLines := st.textLines ++ [trimL line] }
      else
        match st.curId, st.curStart, st.curEnd with
        | some i, some s, some e =>
          { curId := none, curStart := none, curEnd := none, textLines := [],
            entries := st.entries ++
              [⟨i, s, e, List.intercalate ['\n'] st.textLines⟩] }
        | _, _, _ => st

instance {ε α : Type _} [DecidableEq ε] [DecidableEq α] : DecidableEq (Except ε α) := fun a b =>
  match a, b with
  | .error x, .error y => decidable_of_iff (x = y) (by simp)
  | .error _, .ok _ => isFalse (by simp)
  | .ok _, .error _ => isFalse (by simp)
  | .ok x, .ok y => decidable_of_iff (x = y) (by simp)

/-- The entry list accumulated by the variant parser loop, including the
trailing flush when the file does not end with a blank line.  The variant
parseSrt below fails when a non empty input produced no entries. -/
def altScan (srtContent : List Char) : List SrtEntryAlt :=
  let st := (splitLinesAlt (trimL srtContent)).foldl altStep ⟨none, none, none, [], []⟩
  match st.curId, st.curStart with
  | some i, some s =>
    st.entries ++ [⟨i, s, st.curEnd.getD [], List.intercalate ['\n'] st.textLines⟩]
  | _, _ => st.entries

def parseSrtAlt (srtContent : List Char) : Except (List Char) (List SrtEntryAlt) :=
  if altScan srtContent = [] ∧ 0 < (trimL srtContent).length then
    .error ("Invalid SRT format. No entries could be parsed.").toList
  else
    .ok (altScan srtContent)

/-! ## Digit and timestamp lemmas -/

theorem isDigit_toNat {c : Char} (h : c.isDigit = true) :
    48 ≤ c.toNat ∧ c.toNat ≤ 57 := by
  simp [Char.isDigit] at h
  exact h

theorem digit_ne_of_toNat {c d : Char} (h : c.isDigit = true)
    (hd : d.toNat < 48 ∨ 57 < d.toNat) : c ≠ d := by
  intro he
  obtain ⟨h1, h2⟩ := isDigit_toNat h
  rw [he] at h1 h2
  omega

theorem digit_not_ws {c : Char} (h : c.isDigit = true) : isWs c = false := by
  have h1 : c ≠ ' ' := digit_ne_of_toNat h (by left; decide)
  have h2 : c ≠ '\t' := digit_ne_of_toNat h (by left; decide)
  have h3 : c ≠ '\n' := digit_ne_of_toNat h (by left; decide)
  have h4 : c ≠ '\r' := digit_ne_of_toNat h (by left; decide)
  have h5 : c ≠ Char.ofNat 11 := digit_ne_of_toNat h (by left; decide)
  have h6 : c ≠ Char.ofNat 12 := digit_ne_of_toNat h (by left; decide)
  simp [isWs, h1, h2, h3, h4, h5, h6]

theorem digit_not_punct {c : Char} (h : c.isDigit = true) :
    (decide (c = ':') || decide (c = ',')) = false := by
  have h1 : c ≠ ':' := digit_ne_of_toNat h (by right; decide)
  have h2 : c ≠ ',' := digit_ne_of_toNat h (by left; decide)
  simp [h1, h2]

theorem digVal_le {c : Char} (h : c.isDigit = true) : digVal c ≤ 9 := by
  obtain ⟨h1, h2⟩ := isDigit_toNat h
  simp only [digVal]
  omega

theorem splitPunct_digits (c0 c1 c2 c3 c4 c5 c6 c7 c8 : Char)
    (h0 : c0.isDigit = true) (h1 : c1.isDigit = true) (h2 : c2.isDigit = true)
    (h3 : c3.isDigit = true) (h4 : c4.isDigit = true) (h5 : c5.isDigit = true)
    (h6 : c6.isDigit = true) (h7 : c7.isDigit = true) (h8 : c8.isDigit = true) :
    splitPunct [c0, c1, ':', c2, c3, ':', c4, c5, ',', c6, c7, c8] =
      [[c0, c1], [c2, c3], [c4, c5], [c6, c7, c8]] := by
  simp [splitPunct, splitCh, digit_not_punct h0, digit_not_punct h1,
    digit_not_punct h2, digit_not_punct h3, digit_not_punct h4,
    digit_not_punct h5, digit_not_punct h6, digit_not_punct h7,
    digit_not_punct h8]

theorem parseIntJS_digits {l : List Char} (hne : l ≠ [])
    (hdig : ∀ c ∈ l, c.isDigit = true) :
    parseIntJS l = some ((natOfDigits l : Nat) : Int) := by
  obtain ⟨c, cs, rfl⟩ := List.exists_cons_of_ne_nil hne
  have hc : c.isDigit = true := hdig c (by simp)
  have hcw : isWs c = false := digit_not_ws hc
  have hminus : c ≠ '-' := digit_ne_of_toNat hc (by left; decide)
  have hplus : c ≠ '+' := digit_ne_of_toNat hc (by left; decide)
  have hdrop : (c :: cs).dropWhile isWs = c :: cs := by
    rw [List.dropWhile_cons, hcw]
    simp
  have htake : (c :: cs).takeWhile Char.isDigit = c :: cs :=
    List.takeWhile_eq_self_iff.mpr hdig
  have hstep : parseIntJS (c :: cs) =
      if (c :: cs).isEmpty then none
      else some (1 * ((natOfDigits (c :: cs) : Nat) : Int)) := by
    simp only [parseIntJS, hdrop, List.head?_cons, Option.some.injEq]
    rw [if_neg hminus, if_neg hplus]
    simp only [htake]
  rw [hstep]
  simp

theorem matchTS_inv {s g rest : List Char} (h : matchTS s = some (g, rest)) :
    ∃ c0 c1 c2 c3 c4 c5 c6 c7 c8,
      s = c0 :: c1 :: ':' :: c2 :: c3 :: ':' :: c4 :: c5 :: ',' :: c6 :: c7 :: c8 :: rest ∧
      g = [c0, c1, ':', c2, c3, ':', c4, c5, ',', c6, c7, c8] ∧
      c0.isDigit = true ∧ c1.isDigit = true ∧ c2.isDigit = true ∧
      c3.isDigit = true ∧ c4.isDigit = true ∧ c5.isDigit = true ∧
      c6.isDigit = true ∧ c7.isDigit = true ∧ c8.isDigit = true := by
  unfold matchTS at h
  split at h
  · next c0 c1 c2 c3 c4 c5 c6 c7 c8 rest2 =>
    split at h
    · next hdig =>
      simp only [Option.some.injEq, Prod.mk.injEq] at h
      obtain ⟨hg, hr⟩ := h
      simp only [Bool.and_eq_true] at hdig
      exact ⟨c0, c1, c2, c3, c4, c5, c6, c7, c8, by rw [hr],
        hg.symm, hdig.1.1.1.1.1.1.1.1, hdig.1.1.1.1.1.1.1.2,
        hdig.1.1.1.1.1.1.2, hdig.1.1.1.1.1.2, hdig.1.1.1.1.2,
        hdig.1.1.1.2, hdig.1.1.2, hdig.1.2, hdig.2⟩
    · simp at h
  · simp at h

/-- The numeric value of the matched timestamp group, in terms of the
digit values. -/
theorem timeToMs_digits (c0 c1 c2 c3 c4 c5 c6 c7 c8 : Char)
    (h0 : c0.isDigit = true) (h1 : c1.isDigit = true) (h2 : c2.isDigit = true)
    (h3 : c3.isDigit = true) (h4 : c4.isDigit = true) (h5 : c5.isDigit = true)
    (h6 : c6.isDigit = true) (h7 : c7.isDigit = true) (h8 : c8.isDigit = true) :
    timeToMs [c0, c1, ':', c2, c3, ':', c4, c5, ',', c6, c7, c8] =
      some ((((10 * digVal c0 + digVal c1) * 3600000 +
        (10 * digVal c2 + digVal c3) * 60000 +
        (10 * digVal c4 + digVal c5) * 1000 +
        (100 * digVal c6 + 10 * digVal c7 + digVal c8) : Nat) : Int)) := by
  have hsp := splitPunct_digits c0 c1 c2 c3 c4 c5 c6 c7 c8 h0 h1 h2 h3 h4 h5 h6 h7 h8
  have e1 : parseIntJS [c0, c1] = some ((natOfDigits [c0, c1] : Nat) : Int) :=
    parseIntJS_digits (by simp)
      (by intro c hc; simp at hc; rcases hc with rfl | rfl; exacts [h0, h1])
  have e2 : parseIntJS [c2, c3] = some ((natOfDigits [c2, c3] : Nat) : Int) :=
    parseIntJS_digits (by simp)
      (by intro c hc; simp at hc; rcases hc with rfl | rfl; exacts [h2, h3])
  have e3 : parseIntJS [c4, c5] = some ((natOfDigits [c4, c5] : Nat) : Int) :=
    parseIntJS_digits (by simp)
      (by intro c hc; simp at hc; rcases hc with rfl | rfl; exacts [h4, h5])
  have e4 : parseIntJS [c6, c7, c8] = some ((natOfDigits [c6, c7, c8] : Nat) : Int) :=
    parseIntJS_digits (by simp)
      (by intro c hc; simp at hc; rcases hc with rfl | rfl | rfl; exacts [h6, h7, h8])
  have hv1 : natOfDigits [c0, c1] = 10 * digVal c0 + digVal c1 := by
    simp [natOfDigits]
  have hv2 : natOfDigits [c2, c3] = 10 * digVal c2 + digVal c3 := by
    simp [natOfDigits]
  have hv3 : natOfDigits [c4, c5] = 10 * digVal c4 + digVal c5 := by
    simp [natOfDigits]
  have hv4 : natOfDigits [c6, c7, c8] = 100 * digVal c6 + 10 * digVal c7 + digVal c8 := by
    simp [natOfDigits]; ring
  have g0 : (([[c0, c1], [c2, c3], [c4, c5], [c6, c7, c8]] : List (List Char)).getD 0 []) =
      [c0, c1] := rfl
  have g1 : (([[c0, c1], [c2, c3], [c4, c5], [c6, c7, c8]] : List (List Char)).getD 1 []) =
      [c2, c3] := rfl
  have g2 : (([[c0, c1], [c2, c3], [c4, c5], [c6, c7, c8]] : List (List Char)).getD 2 []) =
      [c4, c5] := rfl
  have g3 : (([[c0, c1], [c2, c3], [c4, c5], [c6, c7, c8]] : List (List Char)).getD 3 []) =
      [c6, c7, c8] := rfl
  simp only [timeToMs, hsp, g0, g1, g2, g3, e1, e2, e3, e4, hv1, hv2, hv3, hv4]
  push_cast
  ring_nf

/-! ## Rendering lemmas -/

theorem digitCh_isDigit {n : Nat} (h : n < 10) : (digitCh n).isDigit = true := by
  interval_cases n <;> decide

theorem digitCh_toNat {n : Nat} (h : n < 10) : (digitCh n).toNat = 48 + n := by
  interval_cases n <;> decide

theorem digVal_digitCh {n : Nat} (h : n < 10) : digVal (digitCh n) = n := by
  simp [digVal, digitCh_toNat h]

theorem digitCh_digVal {c : Char} (h : c.isDigit = true) : digitCh (digVal c) = c := by
  have h1 := (isDigit_toNat h).1
  have h2 : 48 + (c.toNat - 48) = c.toNat := by omega
  rw [digVal, digitCh, h2, Char.ofNat_toNat]

theorem natOfDigits_append (l : List Char) (c : Char) :
    natOfDigits (l ++ [c]) = 10 * natOfDigits l + digVal c := by
  simp [natOfDigits, List.foldl_append]

theorem natOfDigits_natToChars (n : Nat) : natOfDigits (natToChars n) = n := by
  induction n using Nat.strong_induction_on with
  | _ n ih =>
    rw [natToChars_eq]
    by_cases h : n < 10
    · rw [if_pos h]
      simp [natOfDigits, digVal_digitCh h]
    · rw [if_neg h]
      rw [natOfDigits_append, ih (n / 10) (by omega), digVal_digitCh (by omega)]
      omega

theorem natToChars_all_digits (n : Nat) : ∀ c ∈ natToChars n, c.isDigit = true := by
  induction n using Nat.strong_induction_on with
  | _ n ih =>
    rw [natToChars_eq]
    by_cases h : n < 10
    · rw [if_pos h]
      intro c hc
      simp at hc
      rw [hc]
      exact digitCh_isDigit h
    · rw [if_neg h]
      intro c hc
      rcases List.mem_append.mp hc with h1 | h2
      · exact ih (n / 10) (by omega) c h1
      · simp at h2
        rw [h2]
        exact digitCh_isDigit (by omega)

theorem natToChars_lt10 {n : Nat} (h : n < 10) : natToChars n = [digitCh n] := by
  rw [natToChars_eq, if_pos h]

theorem natToChars_lt100 {n : Nat} (h1 : 10 ≤ n) (h2 : n < 100) :
    natToChars n = [digitCh (n / 10), digitCh (n % 10)] := by
  rw [natToChars_eq, if_neg (by omega), natToChars_lt10 (by omega)]
  rfl

/-- Two digit zero padded rendering of a value below one hundred. -/
theorem pad2_eq {n : Nat} (h : n < 100) :
    padZeros 2 (natToChars n) = [digitCh (n / 10), digitCh (n % 10)] := by
  by_cases h1 : n < 10
  · rw [natToChars_lt10 h1]
    have hd : n / 10 = 0 := by omega
    have hm : n % 10 = n := by omega
    rw [hd, hm]
    rfl
  · rw [natToChars_lt100 (by omega) h]
    rfl

/-- Three digit zero padded rendering of a value below one thousand. -/
theorem pad3_eq {n : Nat} (h : n < 1000) :
    padZeros 3 (natToChars n) =
      [digitCh (n / 100), digitCh (n / 10 % 10), digitCh (n % 10)] := by
  by_cases h1 : n < 10
  · rw [natToChars_lt10 h1]
    have hd : n / 100 = 0 := by omega
    have hm : n / 10 % 10 = 0 := by omega
    have hm2 : n % 10 = n := by omega
    rw [hd, hm, hm2]
    rfl
  · by_cases h2 : n < 100
    · rw [natToChars_lt100 (by omega) h2]
      have hd : n / 100 = 0 := by omega
      have hm : n / 10 % 10 = n / 10 := by omega
      rw [hd, hm]
      rfl
    · rw [natToChars_eq, if_neg (by omega),
        natToChars_lt100 (by omega) (by omega)]
      have hd : n / 10 / 10 = n / 100 := by omega
      have hm : n / 10 % 10 = n / 10 % 10 := rfl
      rw [hd]
      rfl

theorem intToChars_ofNat (k : Nat) : intToChars (k : Int) = natToChars k := by
  rw [intToChars, if_neg (by simp)]
  simp

@[norm_cast]
theorem fdiv_ofNat (a b : Nat) : ((a : Int)).fdiv (b : Int) = ((a / b : Nat) : Int) :=
  (Int.ofNat_fdiv a b).symm

@[norm_cast]
theorem tmod_ofNat (a b : Nat) : ((a : Int)).tmod (b : Int) = ((a % b : Nat) : Int) := by
  simp [Int.tmod]

/-- The characters produced by msToTime on a nonnegative value below one
hundred hours, in terms of the component digits. -/
theorem msToTime_digits (n : Nat) (h : n < 360000000) :
    msToTime (n : Int) =
      [digitCh (n / 3600000 / 10), digitCh (n / 3600000 % 10), ':',
       digitCh (n / 60000 % 60 / 10), digitCh (n / 60000 % 60 % 10), ':',
       digitCh (n / 1000 % 60 / 10), digitCh (n / 1000 % 60 % 10), ',',
       digitCh (n % 1000 / 100), digitCh (n % 1000 / 10 % 10), digitCh (n % 1000 % 10)] := by
  unfold msToTime
  norm_cast
  rw [intToChars_ofNat, intToChars_ofNat, intToChars_ofNat, intToChars_ofNat]
  have hh : n / 1000 / 3600 = n / 3600000 := by omega
  have hm : n / 1000 % 3600 / 60 = n / 60000 % 60 := by omega
  rw [hh, hm]
  rw [pad2_eq (by omega), pad2_eq (by omega), pad2_eq (by omega), pad3_eq (by omega)]
  rfl

/-- The timestamp pattern matches the head of any list starting with the
twelve character shape. -/
theorem matchTS_build (c0 c1 c2 c3 c4 c5 c6 c7 c8 : Char) (rest : List Char)
    (h0 : c0.isDigit = true) (h1 : c1.isDigit = true) (h2 : c2.isDigit = true)
    (h3 : c3.isDigit = true) (h4 : c4.isDigit = true) (h5 : c5.isDigit = true)
    (h6 : c6.isDigit = true) (h7 : c7.isDigit = true) (h8 : c8.isDigit = true) :
    matchTS (c0 :: c1 :: ':' :: c2 :: c3 :: ':' :: c4 :: c5 :: ',' :: c6 :: c7 :: c8 :: rest) =
      some ([c0, c1, ':', c2, c3, ':', c4, c5, ',', c6, c7, c8], rest) := by
  show (if (c0.isDigit && c1.isDigit && c2.isDigit && c3.isDigit && c4.isDigit &&
      c5.isDigit && c6.isDigit && c7.isDigit && c8.isDigit) = true
    then some (([c0, c1, ':', c2, c3, ':', c4, c5, ',', c6, c7, c8], rest) :
      List Char × List Char)
    else none) = some ([c0, c1, ':', c2, c3, ':', c4, c5, ',', c6, c7, c8], rest)
  rw [if_pos (by simp [h0, h1, h2, h3, h4, h5, h6, h7, h8])]

/-- Parsing the rendered time of a value below one hundred hours gives the
value back. -/
theorem timeToMs_msToTime (n : Nat) (h : n < 360000000) :
    timeToMs (msToTime (n : Int)) = some ((n : Nat) : Int) := by
  rw [msToTime_digits n h]
  rw [timeToMs_digits _ _ _ _ _ _ _ _ _
    (digitCh_isDigit (by omega)) (digitCh_isDigit (by omega))
    (digitCh_isDigit (by omega)) (digitCh_isDigit (by omega))
    (digitCh_isDigit (by omega)) (digitCh_isDigit (by omega))
    (digitCh_isDigit (by omega)) (digitCh_isDigit (by omega))
    (digitCh_isDigit (by omega))]
  rw [digVal_digitCh (by omega), digVal_digitCh (by omega), digVal_digitCh (by omega),
    digVal_digitCh (by omega), digVal_digitCh (by omega), digVal_digitCh (by omega),
    digVal_digitCh (by omega), digVal_digitCh (by omega), digVal_digitCh (by omega)]
  congr 1
  have : (10 * (n / 3600000 / 10) + n / 3600000 % 10) * 3600000 +
      (10 * (n / 60000 % 60 / 10) + n / 60000 % 60 % 10) * 60000 +
      (10 * (n / 1000 % 60 / 10) + n / 1000 % 60 % 10) * 1000 +
      (100 * (n % 1000 / 100) + 10 * (n % 1000 / 10 % 10) + n % 1000 % 10) = n := by
    omega
  exact_mod_cast congrArg (fun k : Nat => (k : Int)) this

/-! ## Reallocator lemmas -/

theorem dropWhile_head_not {p : Char → Bool} :
    ∀ {l x : List Char} {c : Char}, l.dropWhile p = c :: x → p c = false := by
  intro l
  induction l with
  | nil => intro x c h; simp [List.dropWhile] at h
  | cons a rest ih =>
    intro x c h
    rw [List.dropWhile_cons] at h
    by_cases ha : p a
    · exact ih (by simpa [ha] using h)
    · simp [ha] at h
      simp [← h.1, ha]

/-- A chunk that survives the trim filter contains a character that is not
whitespace, hence not a newline, so its weight is at least one. -/
theorem chunkWeight_pos {c : List Char} (h : 0 < (trimL c).length) :
    1 ≤ chunkWeight c := by
  have hd : c.dropWhile isWs ≠ [] := by
    intro hnil
    simp [trimL, hnil] at h
  obtain ⟨x, xs, hx⟩ : ∃ x xs, c.dropWhile isWs = x :: xs := by
    cases hcs : c.dropWhile isWs with
    | nil => exact absurd hcs hd
    | cons x xs => exact ⟨x, xs, rfl⟩
  have hxw : isWs x = false := dropWhile_head_not hx
  have hxc : x ∈ c := (List.dropWhile_sublist isWs).subset (by simp [hx])
  have : x ∈ c.filter (fun ch => ch ≠ '\n') := by
    rw [List.mem_filter]
    refine ⟨hxc, ?_⟩
    simp only [ne_eq, decide_eq_true_eq]
    intro hh
    rw [hh] at hxw
    simp [isWs] at hxw
  have := List.length_pos.mpr (List.ne_nil_of_mem this)
  simpa [chunkWeight] using this

theorem jsRound_nonneg {num den : Int} (hn : 0 ≤ num) (hd : 0 < den) :
    0 ≤ jsRound num den :=
  Int.fdiv_nonneg (by omega) (by omega)

theorem getLast?_cons_ne {α : Type _} (x : α) {t : List α} (h : t ≠ []) :
    (x :: t).getLast? = t.getLast? := by
  cases t with
  | nil => exact absurd rfl h
  | cons b l => exact List.getLast?_cons_cons

theorem allocProp_single (endMs D W cursor nid : Int) (c : List Char) :
    allocProp endMs D W cursor nid [c] = ([⟨nid, cursor, endMs, c⟩], nid + 1) := rfl

theorem allocProp_cons2 (endMs D W cursor nid : Int) (c c2 : List Char)
    (rest2 : List (List Char)) :
    allocProp endMs D W cursor nid (c :: c2 :: rest2) =
      (⟨nid, cursor, cursor + jsRound (D * (chunkWeight c : Int)) W, c⟩ ::
         (allocProp endMs D W (cursor + jsRound (D * (chunkWeight c : Int)) W)
           (nid + 1) (c2 :: rest2)).1,
       (allocProp endMs D W (cursor + jsRound (D * (chunkWeight c : Int)) W)
         (nid + 1) (c2 :: rest2)).2) := rfl

theorem allocEq_single (endMs dur startT nid : Int) (c : List Char) :
    allocEq endMs dur startT nid [c] = ([⟨nid, startT, endMs, c⟩], nid + 1) := rfl

theorem allocEq_cons2 (endMs dur startT nid : Int) (c c2 : List Char)
    (rest2 : List (List Char)) :
    allocEq endMs dur startT nid (c :: c2 :: rest2) =
      (⟨nid, startT, startT + dur, c⟩ ::
         (allocEq endMs dur (startT + dur) (nid + 1) (c2 :: rest2)).1,
       (allocEq endMs dur (startT + dur) (nid + 1) (c2 :: rest2)).2) := rfl

/-- The tiling facts of the proportional walk: as many entries as chunks,
the first starts at the cursor, ends chain to starts, every entry except
the last has a nonnegative span, and the last ends exactly at the given
end time. -/
theorem allocProp_spec (endMs D W : Int) (hD : 0 ≤ D) (hW : 0 < W) :
    ∀ (chunks : List (List Char)) (cursor nid : Int), chunks ≠ [] →
      (allocProp endMs D W cursor nid chunks).1.length = chunks.length ∧
      (allocProp endMs D W cursor nid chunks).1.head?.map SrtEntry.startTime = some cursor ∧
      List.Chain' (fun a b => a.endTime = b.startTime) (allocProp endMs D W cursor nid chunks).1 ∧
      (∀ e ∈ (allocProp endMs D W cursor nid chunks).1.dropLast, e.startTime ≤ e.endTime) ∧
      (allocProp endMs D W cursor nid chunks).1.getLast?.map SrtEntry.endTime = some endMs := by
  intro chunks
  induction chunks with
  | nil => intro cursor nid h; exact absurd rfl h
  | cons c rest ih =>
    intro cursor nid _
    cases rest with
    | nil =>
      rw [allocProp_single]
      exact ⟨rfl, rfl, List.chain'_singleton _, by intro e he; simp at he, rfl⟩
    | cons c2 rest2 =>
      have hshare : 0 ≤ jsRound (D * (chunkWeight c : Int)) W :=
        jsRound_nonneg (by positivity) hW
      obtain ⟨ih1, ih2, ih3, ih4, ih5⟩ :=
        ih (cursor + jsRound (D * (chunkWeight c : Int)) W) (nid + 1) (by simp)
      have hne : (allocProp endMs D W
          (cursor + jsRound (D * (chunkWeight c : Int)) W) (nid + 1) (c2 :: rest2)).1 ≠ [] := by
        intro hnil
        rw [hnil] at ih1
        simp at ih1
      rw [allocProp_cons2]
      refine ⟨by simpa using ih1, by simp, ?_, ?_, ?_⟩
      · rw [List.chain'_cons']
        constructor
        · intro y hy
          rw [List.head?_eq_head hne] at ih2 hy
          cases Option.some.inj hy
          exact (by simpa using ih2 : _ = _).symm
        · exact ih3
      · intro e he
        rw [List.dropLast_cons_of_ne_nil hne] at he
        rcases List.mem_cons.mp he with h1 | h2
        · rw [h1]; simpa using hshare
        · exact ih4 e h2
      · rw [getLast?_cons_ne _ hne]
        exact ih5

/-- The tiling facts of the degenerate equal split walk, for a nonnegative
share. -/
theorem allocEq_spec (endMs dur : Int) (hdur : 0 ≤ dur) :
    ∀ (chunks : List (List Char)) (startT nid : Int), chunks ≠ [] →
      (allocEq endMs dur startT nid chunks).1.length = chunks.length ∧
      (allocEq endMs dur startT nid chunks).1.head?.map SrtEntry.startTime = some startT ∧
      List.Chain' (fun a b => a.endTime = b.startTime) (allocEq endMs dur startT nid chunks).1 ∧
      (∀ e ∈ (allocEq endMs dur startT nid chunks).1.dropLast, e.startTime ≤ e.endTime) ∧
      (allocEq endMs dur startT nid chunks).1.getLast?.map SrtEntry.endTime = some endMs := by
  intro chunks
  induction chunks with
  | nil => intro startT nid h; exact absurd rfl h
  | cons c rest ih =>
    intro startT nid _
    cases rest with
    | nil =>
      rw [allocEq_single]
      exact ⟨rfl, rfl, List.chain'_singleton _, by intro e he; simp at he, rfl⟩
    | cons c2 rest2 =>
      obtain ⟨ih1, ih2, ih3, ih4, ih5⟩ := ih (startT + dur) (nid + 1) (by simp)
      have hne : (allocEq endMs dur (startT + dur) (nid + 1) (c2 :: rest2)).1 ≠ [] := by
        intro hnil
        rw [hnil] at ih1
        simp at ih1
      rw [allocEq_cons2]
      refine ⟨by simpa using ih1, by simp, ?_, ?_, ?_⟩
      · rw [List.chain'_cons']
        constructor
        · intro y hy
          rw [List.head?_eq_head hne] at ih2 hy
          cases Option.some.inj hy
          exact (by simpa using ih2 : _ = _).symm
        · exact ih3
      · intro e he
        rw [List.dropLast_cons_of_ne_nil hne] at he
        rcases List.mem_cons.mp he with h1 | h2
        · rw [h1]; simpa using hdur
        · exact ih4 e h2
      · rw [getLast?_cons_ne _ hne]
        exact ih5

theorem processEntry_arr (orig : SrtEntry) (cs : List (List Char)) (nid : Int) :
    processEntry orig (.arr cs) nid =
      (let textChunks := cs.filter (fun c => 0 < (trimL c).length)
       if textChunks.length < 2 then
         let joined := List.intercalate [' '] textChunks
         let combinedText := if joined.isEmpty then orig.text else joined
         ([⟨nid, orig.startTime, orig.endTime, combinedText⟩], nid + 1)
       else
         let totalDuration := orig.endTime - orig.startTime
         let totalLength : Int := ((textChunks.map chunkWeight).sum : Nat)
         if 0 < totalLength ∧ 0 < totalDuration then
           allocProp orig.endTime totalDuration totalLength orig.startTime nid textChunks
         else
           allocEq orig.endTime (totalDuration.fdiv textChunks.length)
             orig.startTime nid textChunks) := rfl

/-- The weights of surviving chunks sum to a positive total as soon as at
least one chunk survives. -/
theorem totalWeight_pos {cs : List (List Char)}
    (h : cs.filter (fun c => 0 < (trimL c).length) ≠ []) :
    0 < ((cs.filter (fun c => 0 < (trimL c).length)).map chunkWeight).sum := by
  obtain ⟨c, rest, hc⟩ : ∃ c rest, cs.filter (fun c => 0 < (trimL c).length) = c :: rest := by
    cases hcs : cs.filter (fun c => 0 < (trimL c).length) with
    | nil => exact absurd hcs h
    | cons c rest => exact ⟨c, rest, rfl⟩
  have hcmem : c ∈ cs.filter (fun c => 0 < (trimL c).length) := by simp [hc]
  have hcp : 0 < (trimL c).length := by
    have := (List.mem_filter.mp hcmem).2
    simpa using this
  have h1 := chunkWeight_pos hcp
  rw [hc]
  simp only [List.map_cons, List.sum_cons]
  omega

/-- C1 amended: the entries emitted for a split decision chain exactly
across the original span, with the first starting at the original start,
each entry starting where the previous one ended, every entry except
possibly the last having a nonnegative span, and the last ending exactly
at the original end.  The claim as frozen also asserted a nonnegative span
for the last entry, which the code violates, see the counterexample. -/
theorem c1_split_tiling (orig : SrtEntry) (cs : List (List Char)) (nid : Int)
    (horder : orig.startTime ≤ orig.endTime)
    (hN : 2 ≤ (cs.filter (fun c => 0 < (trimL c).length)).length) :
    (processEntry orig (.arr cs) nid).1.length =
      (cs.filter (fun c => 0 < (trimL c).length)).length ∧
    (processEntry orig (.arr cs) nid).1.head?.map SrtEntry.startTime =
      some orig.startTime ∧
    List.Chain' (fun a b => a.endTime = b.startTime) (processEntry orig (.arr cs) nid).1 ∧
    (∀ e ∈ (processEntry orig (.arr cs) nid).1.dropLast, e.startTime ≤ e.endTime) ∧
    (processEntry orig (.arr cs) nid).1.getLast?.map SrtEntry.endTime =
      some orig.endTime := by
  rw [processEntry_arr]
  simp only []
  rw [if_neg (by omega)]
  have hne : cs.filter (fun c => 0 < (trimL c).length) ≠ [] := by
    intro hnil
    rw [hnil] at hN
    simp at hN
  have hW : (0 : Int) < ((cs.filter (fun c => 0 < (trimL c).length)).map chunkWeight).sum := by
    exact_mod_cast totalWeight_pos hne
  by_cases hD : 0 < orig.endTime - orig.startTime
  · rw [if_pos ⟨hW, hD⟩]
    exact allocProp_spec orig.endTime (orig.endTime - orig.startTime) _
      (by omega) hW _ orig.startTime nid hne
  · rw [if_neg (by tauto)]
    have hzero : orig.endTime - orig.startTime = 0 := by omega
    have hfz : (orig.endTime - orig.startTime).fdiv
        ((cs.filter (fun c => 0 < (trimL c).length)).length : Int) = 0 := by
      rw [hzero]
      exact Int.zero_fdiv _
    rw [hfz]
    exact allocEq_spec orig.endTime 0 le_rfl _ orig.startTime nid hne

/-- C1 witness: the tiling theorem applied to a concrete entry and a
concrete two chunk decision. -/
theorem c1_split_tiling_witness :
    ((0 : Int) ≤ 4000 ∧
      2 ≤ ((["ab".toList, "cd".toList] : List (List Char)).filter
        (fun c => 0 < (trimL c).length)).length) ∧
    ((processEntry ⟨7, 0, 4000, "t".toList⟩ (.arr ["ab".toList, "cd".toList]) 1).1.length =
        ((["ab".toList, "cd".toList] : List (List Char)).filter
          (fun c => 0 < (trimL c).length)).length ∧
      (processEntry ⟨7, 0, 4000, "t".toList⟩ (.arr ["ab".toList, "cd".toList]) 1).1.head?.map
          SrtEntry.startTime = some 0 ∧
      List.Chain' (fun a b => a.endTime = b.startTime)
        (processEntry ⟨7, 0, 4000, "t".toList⟩ (.arr ["ab".toList, "cd".toList]) 1).1 ∧
      (∀ e ∈ (processEntry ⟨7, 0, 4000, "t".toList⟩
          (.arr ["ab".toList, "cd".toList]) 1).1.dropLast, e.startTime ≤ e.endTime) ∧
      (processEntry ⟨7, 0, 4000, "t".toList⟩ (.arr ["ab".toList, "cd".toList]) 1).1.getLast?.map
          SrtEntry.endTime = some 4000) :=
  ⟨⟨by decide, by decide⟩,
    c1_split_tiling ⟨7, 0, 4000, "t".toList⟩ ["ab".toList, "cd".toList] 1
      (by decide) (by decide)⟩

/-- C1 counterexample: with an original span of three milliseconds and six
surviving one character chunks, every non final chunk rounds up to one
millisecond, the cursor overshoots the original end, and the final entry
is emitted with its end time strictly below its start time, refuting the
claim that every emitted entry satisfies endTimeMs at least startTimeMs. -/
theorem c1_counterexample :
    ((["a".toList, "b".toList, "c".toList, "d".toList, "e".toList, "f".toList] :
        List (List Char)).filter (fun c => 0 < (trimL c).length)).length = 6 ∧
    (processEntry ⟨1, 0, 3, "x".toList⟩
      (.arr ["a".toList, "b".toList, "c".toList, "d".toList, "e".toList, "f".toList]) 1).1.map
        (fun e => (e.startTime, e.endTime)) =
      [(0, 1), (1, 2), (2, 3), (3, 4), (4, 5), (5, 3)] ∧
    ((processEntry ⟨1, 0, 3, "x".toList⟩
      (.arr ["a".toList, "b".toList, "c".toList, "d".toList, "e".toList, "f".toList]) 1).1.all
        (fun e => decide (e.startTime ≤ e.endTime))) = false := by decide

/-- C7: a single string decision yields exactly one entry with the original
timing, the decision text and the next fresh id; a chunk array with fewer
than two surviving chunks collapses to one entry with the original timing
and the surviving chunks joined by a single space, or the original text
when none survive. -/
theorem c7_single_and_collapse (orig : SrtEntry) (s : List Char)
    (cs : List (List Char)) (nid : Int)
    (h : (cs.filter (fun c => 0 < (trimL c).length)).length < 2) :
    processEntry orig (.str s) nid =
      ([⟨nid, orig.startTime, orig.endTime, s⟩], nid + 1) ∧
    processEntry orig (.arr cs) nid =
      ([⟨nid, orig.startTime, orig.endTime,
          if cs.filter (fun c => 0 < (trimL c).length) = [] then orig.text
          else List.intercalate [' '] (cs.filter (fun c => 0 < (trimL c).length))⟩],
        nid + 1) := by
  refine ⟨rfl, ?_⟩
  rw [processEntry_arr]
  simp only []
  rw [if_pos h]
  cases hf : cs.filter (fun c => 0 < (trimL c).length) with
  | nil => simp [hf, List.intercalate]
  | cons c rest =>
    cases rest with
    | nil =>
      have hcmem : c ∈ cs.filter (fun c => 0 < (trimL c).length) := by simp [hf]
      have hcp : 0 < (trimL c).length := by
        have := (List.mem_filter.mp hcmem).2
        simpa using this
      have hcne : c ≠ [] := by
        intro hnil
        rw [hnil] at hcp
        simp [trimL] at hcp
      simp [List.intercalate, List.isEmpty_iff, hcne]
    | cons c2 rest2 =>
      rw [hf] at h
      simp at h
      omega

/-- C7 witness: the collapse theorem applied to a concrete entry, a
concrete reflowed string and a concrete degenerate chunk array. -/
theorem c7_single_and_collapse_witness :
    ((["ok".toList, "   ".toList] : List (List Char)).filter
        (fun c => 0 < (trimL c).length)).length < 2 ∧
    processEntry ⟨3, 10, 20, "t".toList⟩ (.str "new".toList) 5 =
      ([⟨5, 10, 20, "new".toList⟩], 6) ∧
    processEntry ⟨3, 10, 20, "t".toList⟩ (.arr ["ok".toList, "   ".toList]) 5 =
      ([⟨5, 10, 20,
          if (["ok".toList, "   ".toList] : List (List Char)).filter
              (fun c => 0 < (trimL c).length) = [] then "t".toList
          else List.intercalate [' ']
            ((["ok".toList, "   ".toList] : List (List Char)).filter
              (fun c => 0 < (trimL c).length))⟩], 6) :=
  ⟨by decide,
    c7_single_and_collapse ⟨3, 10, 20, "t".toList⟩ "new".toList
      ["ok".toList, "   ".toList] 5 (by decide)⟩

/-- C8: the worked example of the specification: an original span from
1000 to 5000 split into chunks AB and ABCD gives a first entry from 1000
to 2333 and a second entry from 2333 to exactly 5000. -/
theorem c8_worked_example :
    processEntry ⟨5, 1000, 5000, "A".toList⟩ (.arr ["AB".toList, "ABCD".toList]) 1 =
      ([⟨1, 1000, 2333, "AB".toList⟩, ⟨2, 2333, 5000, "ABCD".toList⟩], 3) := by decide

/-! ## Parser claim theorems -/

/-- C5: the parser performs no ordering check on the two timestamps: a
block whose timing line has an end before its start is emitted unchanged,
with endTimeMs strictly below startTimeMs, instead of being rejected. -/
theorem c5_reversed_block_accepted :
    parseSrt ("1\n00:00:02,000 --> 00:00:01,000\nhi").toList =
      [⟨1, 2000, 1000, "hi".toList⟩] := by decide

/-- C9 counterexample: a block whose first line is the single digit zero
contributes an entry whose id is zero, refuting both that every emitted id
is at least one and that a zero first line contributes no entry; negative
ids and ids with trailing junk are accepted the same way. -/
theorem c9_counterexample :
    parseSrt ("0\n00:00:00,000 --> 00:00:01,000\nx").toList =
      [⟨0, 0, 1000, "x".toList⟩] ∧
    parseSrt ("-5\n00:00:00,000 --> 00:00:01,000\nx").toList =
      [⟨-5, 0, 1000, "x".toList⟩] ∧
    parseSrt ("12abc\n00:00:00,000 --> 00:00:01,000\nx").toList =
      [⟨12, 0, 1000, "x".toList⟩] := by decide

/-- C9 amended: every emitted entry takes its id from parseInt applied to
the first line of its block, so the id is an arbitrary integer, possibly
zero or negative, with trailing junk after the digits ignored; a block
whose first line has no leading integer prefix contributes no entry. -/
theorem c9_ids_from_parseInt :
    (∀ (x : List Char) (e : SrtEntry), e ∈ parseSrt x →
      ∃ b, b ∈ splitSep (trimL (replaceCRLF x)) ∧ parseBlock b = some e ∧
        ((splitNl (trimL b)).head?.bind parseIntJS) = some e.id) ∧
    (∀ b : List Char, ((splitNl (trimL b)).head?.bind parseIntJS) = none →
      parseBlock b = none) := by
  constructor
  · intro x e he
    rcases List.mem_filterMap.mp he with ⟨b, hb, hpb⟩
    refine ⟨b, hb, hpb, ?_⟩
    unfold parseBlock at hpb
    cases hlines : splitNl (trimL b) with
    | nil => rw [hlines] at hpb; simp at hpb
    | cons l0 ls =>
      cases ls with
      | nil => rw [hlines] at hpb; simp at hpb
      | cons l1 rest =>
        rw [hlines] at hpb
        dsimp only at hpb
        simp only [List.head?_cons, Option.bind_some]
        cases hid : parseIntJS l0 with
        | none => rw [hid] at hpb; simp at hpb
        | some idv =>
          cases hst : searchTime l1 with
          | none => rw [hid, hst] at hpb; simp at hpb
          | some gg =>
            obtain ⟨g1, g2⟩ := gg
            rw [hid, hst] at hpb
            simp only [Option.some.injEq] at hpb
            show parseIntJS l0 = some e.id
            rw [hid, ← hpb]
  · intro b hnone
    unfold parseBlock
    cases hlines : splitNl (trimL b) with
    | nil => simp
    | cons l0 ls =>
      rw [hlines] at hnone
      simp only [List.head?_cons, Option.bind_some] at hnone
      cases ls with
      | nil => simp
      | cons l1 rest =>
        dsimp only
        have hid : parseIntJS l0 = none := hnone
        rw [hid]

/-- C9 witness: the amended theorem applied to a concrete file and to a
concrete block without an integer first line. -/
theorem c9_ids_from_parseInt_witness :
    ((⟨7, 0, 1000, "x".toList⟩ : SrtEntry) ∈
        parseSrt ("7\n00:00:00,000 --> 00:00:01,000\nx").toList ∧
      ∃ b, b ∈ splitSep (trimL (replaceCRLF
          ("7\n00:00:00,000 --> 00:00:01,000\nx").toList)) ∧
        parseBlock b = some ⟨7, 0, 1000, "x".toList⟩ ∧
        ((splitNl (trimL b)).head?.bind parseIntJS) = some 7) ∧
    (((splitNl (trimL ("abc\n00:00:00,000 --> 00:00:01,000\nx").toList)).head?.bind
        parseIntJS) = none ∧
      parseBlock ("abc\n00:00:00,000 --> 00:00:01,000\nx").toList = none) :=
  ⟨⟨by decide, c9_ids_from_parseInt.1 _ _ (by decide)⟩,
   ⟨by decide, c9_ids_from_parseInt.2 _ (by decide)⟩⟩

/-- C6 counterexample: timeToMs accepts the string 0:0:0,0, which does not
match the two digit, two digit, two digit, three digit pattern, and
returns the number zero instead of failing with a malformed timestamp
error; the function has no failure channel at all. -/
theorem c6_counterexample :
    timeToMs ("0:0:0,0").toList = some 0 ∧
    matchTS ("0:0:0,0").toList = none := by decide

/-- C6 amended: timeToMs performs no shape validation of its own: every
string matching the fixed pattern evaluates to its millisecond value, but
strings outside the pattern are also accepted whenever their first four
colon or comma separated fields have integer prefixes, and otherwise the
result is the JS NaN rather than a raised error; the pattern is enforced
only by the timing line regex of parseSrt. -/
theorem c6_no_inner_validation :
    (∀ s g rest : List Char, matchTS s = some (g, rest) →
      ∃ n : Int, timeToMs g = some n ∧ 0 ≤ n) ∧
    timeToMs ("0:0:0,0").toList = some 0 ∧
    timeToMs ("garbage").toList = none := by
  refine ⟨?_, by decide, by decide⟩
  intro s g rest h
  obtain ⟨c0, c1, c2, c3, c4, c5, c6, c7, c8, hs, hg, h0, h1, h2, h3, h4, h5, h6, h7, h8⟩ :=
    matchTS_inv h
  subst hg
  rw [timeToMs_digits c0 c1 c2 c3 c4 c5 c6 c7 c8 h0 h1 h2 h3 h4 h5 h6 h7 h8]
  exact ⟨_, rfl, by positivity⟩

/-- C6 witness: the amended theorem applied to a concrete matched
timestamp. -/
theorem c6_no_inner_validation_witness :
    matchTS ("01:02:03,004x").toList = some (("01:02:03,004").toList, "x".toList) ∧
    ∃ n : Int, timeToMs ("01:02:03,004").toList = some n ∧ 0 ≤ n :=
  ⟨by decide, c6_no_inner_validation.1 ("01:02:03,004x").toList
    ("01:02:03,004").toList ("x").toList (by decide)⟩

/-- Rendering of a component quadruple below the natural bounds. -/
theorem msToTime_build (H M S MS : Nat) (hH : H < 100) (hM : M < 60)
    (hS : S < 60) (hMS : MS < 1000) :
    msToTime ((H * 3600000 + M * 60000 + S * 1000 + MS : Nat) : Int) =
      [digitCh (H / 10), digitCh (H % 10), ':', digitCh (M / 10), digitCh (M % 10), ':',
       digitCh (S / 10), digitCh (S % 10), ',',
       digitCh (MS / 100), digitCh (MS / 10 % 10), digitCh (MS % 10)] := by
  have hb : H * 3600000 + M * 60000 + S * 1000 + MS < 360000000 := by omega
  rw [msToTime_digits _ hb]
  have e0 : (H * 3600000 + M * 60000 + S * 1000 + MS) / 3600000 = H := by omega
  have e1 : (H * 3600000 + M * 60000 + S * 1000 + MS) / 60000 % 60 = M := by omega
  have e2 : (H * 3600000 + M * 60000 + S * 1000 + MS) / 1000 % 60 = S := by omega
  have e3 : (H * 3600000 + M * 60000 + S * 1000 + MS) % 1000 = MS := by omega
  rw [e0, e1, e2, e3]

/-- C3 counterexample: the string 00:90:00,000 matches the frozen pattern,
two digit fields throughout, yet formatting the parsed value renders the
normalized 01:30:00,000, so the round trip law fails on it. -/
theorem c3_counterexample :
    matchTS ("00:90:00,000").toList = some (("00:90:00,000").toList, []) ∧
    timeToMs ("00:90:00,000").toList = some 5400000 ∧
    msToTime 5400000 = ("01:30:00,000").toList ∧
    ("01:30:00,000").toList ≠ ("00:90:00,000").toList := by decide

/-- C3 amended: the round trip law holds for every string of the pattern
whose minute and second fields are below sixty; fields of sixty or more
parse to a value whose rendering normalizes them, breaking the round
trip. -/
theorem c3_roundtrip (s : List Char)
    (hm : matchTS s = some (s, []))
    (hmin : natOfDigits ((s.drop 3).take 2) < 60)
    (hsec : natOfDigits ((s.drop 6).take 2) < 60) :
    ∃ n : Nat, timeToMs s = some ((n : Nat) : Int) ∧ msToTime ((n : Nat) : Int) = s := by
  obtain ⟨c0, c1, c2, c3, c4, c5, c6, c7, c8, hs, hg, h0, h1, h2, h3, h4, h5, h6, h7, h8⟩ :=
    matchTS_inv hm
  rw [hg] at hmin hsec ⊢
  have hv2 : natOfDigits [c2, c3] = 10 * digVal c2 + digVal c3 := by simp [natOfDigits]
  have hv4 : natOfDigits [c4, c5] = 10 * digVal c4 + digVal c5 := by simp [natOfDigits]
  have hdr3 : (([c0, c1, ':', c2, c3, ':', c4, c5, ',', c6, c7, c8].drop 3).take 2 :
      List Char) = [c2, c3] := rfl
  have hdr6 : (([c0, c1, ':', c2, c3, ':', c4, c5, ',', c6, c7, c8].drop 6).take 2 :
      List Char) = [c4, c5] := rfl
  rw [hdr3, hv2] at hmin
  rw [hdr6, hv4] at hsec
  have d0 := digVal_le h0
  have d1 := digVal_le h1
  have d2 := digVal_le h2
  have d3 := digVal_le h3
  have d4 := digVal_le h4
  have d5 := digVal_le h5
  have d6 := digVal_le h6
  have d7 := digVal_le h7
  have d8 := digVal_le h8
  refine ⟨(10 * digVal c0 + digVal c1) * 3600000 + (10 * digVal c2 + digVal c3) * 60000 +
    (10 * digVal c4 + digVal c5) * 1000 +
    (100 * digVal c6 + 10 * digVal c7 + digVal c8), ?_, ?_⟩
  · exact timeToMs_digits c0 c1 c2 c3 c4 c5 c6 c7 c8 h0 h1 h2 h3 h4 h5 h6 h7 h8
  · rw [msToTime_build (10 * digVal c0 + digVal c1) (10 * digVal c2 + digVal c3)
      (10 * digVal c4 + digVal c5) (100 * digVal c6 + 10 * digVal c7 + digVal c8)
      (by omega) hmin hsec (by omega)]
    have e0 : (10 * digVal c0 + digVal c1) / 10 = digVal c0 := by omega
    have e1 : (10 * digVal c0 + digVal c1) % 10 = digVal c1 := by omega
    have e2 : (10 * digVal c2 + digVal c3) / 10 = digVal c2 := by omega
    have e3 : (10 * digVal c2 + digVal c3) % 10 = digVal c3 := by omega
    have e4 : (10 * digVal c4 + digVal c5) / 10 = digVal c4 := by omega
    have e5 : (10 * digVal c4 + digVal c5) % 10 = digVal c5 := by omega
    have e6 : (100 * digVal c6 + 10 * digVal c7 + digVal c8) / 100 = digVal c6 := by omega
    have e7 : (100 * digVal c6 + 10 * digVal c7 + digVal c8) / 10 % 10 = digVal c7 := by omega
    have e8 : (100 * digVal c6 + 10 * digVal c7 + digVal c8) % 10 = digVal c8 := by omega
    rw [e0, e1, e2, e3, e4, e5, e6, e7, e8,
      digitCh_digVal h0, digitCh_digVal h1, digitCh_digVal h2, digitCh_digVal h3,
      digitCh_digVal h4, digitCh_digVal h5, digitCh_digVal h6, digitCh_digVal h7,
      digitCh_digVal h8]

/-- C3 witness: the amended round trip applied to a concrete in range
timestamp. -/
theorem c3_roundtrip_witness :
    (matchTS ("12:34:56,789").toList = some (("12:34:56,789").toList, []) ∧
      natOfDigits ((("12:34:56,789").toList.drop 3).take 2) < 60 ∧
      natOfDigits ((("12:34:56,789").toList.drop 6).take 2) < 60) ∧
    ∃ n : Nat, timeToMs ("12:34:56,789").toList = some ((n : Nat) : Int) ∧
      msToTime ((n : Nat) : Int) = ("12:34:56,789").toList :=
  ⟨⟨by decide, by decide, by decide⟩,
    c3_roundtrip ("12:34:56,789").toList (by decide) (by decide) (by decide)⟩

/-- C4 counterexample: the main parser of src/services has no failure
channel at all: a non empty garbage input produces the empty entry list
instead of a no entries parsed error; the variant parser of src/src is the
one that throws. -/
theorem c4_counterexample :
    trimL ("garbage").toList ≠ [] ∧
    parseSrt ("garbage").toList = [] ∧
    parseSrtAlt ("garbage").toList =
      .error ("Invalid SRT format. No entries could be parsed.").toList := by decide

/-- C4 amended: the variant parser distinguishes empty from garbage input:
an input that trims to nothing parses to the empty entry list without
failing, a non empty input whose scan yields no entries fails with the no
entries parsed error, and an input with at least one scanned entry
succeeds; the main parser of src/services never fails and simply returns
whatever entries its block scan produced. -/
theorem c4_garbage_vs_empty (x : List Char) :
    (trimL x = [] → parseSrtAlt x = .ok []) ∧
    (altScan x = [] → trimL x ≠ [] →
      parseSrtAlt x = .error ("Invalid SRT format. No entries could be parsed.").toList) ∧
    (altScan x ≠ [] → parseSrtAlt x = .ok (altScan x)) := by
  refine ⟨?_, ?_, ?_⟩
  · intro h
    have hscan : altScan x = [] := by
      unfold altScan
      rw [h]
      rfl
    unfold parseSrtAlt
    rw [if_neg (by simp [h])]
    rw [hscan]
  · intro h1 h2
    have hlen : 0 < (trimL x).length := by
      cases hh : trimL x with
      | nil => exact absurd hh h2
      | cons a b => simp [hh]
    unfold parseSrtAlt
    rw [if_pos ⟨h1, hlen⟩]
  · intro h
    unfold parseSrtAlt
    rw [if_neg (by tauto)]

/-- C4 witness: the amended theorem applied to the empty input and to a
concrete garbage input. -/
theorem c4_garbage_vs_empty_witness :
    (trimL ("").toList = [] ∧ parseSrtAlt ("").toList = .ok []) ∧
    (altScan ("###").toList = [] ∧ trimL ("###").toList ≠ [] ∧
      parseSrtAlt ("###").toList =
        .error ("Invalid SRT format. No entries could be parsed.").toList) :=
  ⟨⟨by decide, (c4_garbage_vs_empty ("").toList).1 (by decide)⟩,
   ⟨by decide, by decide,
     (c4_garbage_vs_empty ("###").toList).2.1 (by decide) (by decide)⟩⟩

/-! ## Line splitting lemmas, toward the round trip -/

theorem splitNl_nil : splitNl [] = [[]] := rfl

theorem splitNl_cons_nl (t : List Char) : splitNl ('\n' :: t) = [] :: splitNl t := by
  simp [splitNl, splitCh]

theorem splitNl_ne_nil (t : List Char) : splitNl t ≠ [] := by
  induction t with
  | nil => simp [splitNl, splitCh]
  | cons c t' ih =>
    by_cases h : c = '\n'
    · rw [h, splitNl_cons_nl]; simp
    · show splitCh _ (c :: t') ≠ []
      rw [splitCh]
      rw [if_neg (by simpa using h)]
      cases hs : splitCh (fun c => decide (c = '\n')) t' with
      | nil => simp
      | cons r rs => simp

theorem splitNl_cons_of_ne {c : Char} (t : List Char) (h : ¬(c = '\n')) :
    splitNl (c :: t) = (c :: (splitNl t).headD []) :: (splitNl t).tail := by
  show splitCh _ (c :: t) = _
  rw [splitCh, if_neg (by simpa using h)]
  cases hs : splitCh (fun c => decide (c = '\n')) t with
  | nil => exact absurd hs (splitNl_ne_nil t)
  | cons r rs => simp [splitNl, hs]

theorem splitNl_no_nl {a : List Char} (h : ∀ c ∈ a, ¬(c = '\n')) :
    splitNl a = [a] := by
  induction a with
  | nil => rfl
  | cons c a' ih =>
    rw [splitNl_cons_of_ne a' (h c (by simp)),
      ih (fun c hc => h c (by simp [hc]))]
    simp

theorem splitNl_append {a b : List Char} (h : ∀ c ∈ a, ¬(c = '\n')) :
    splitNl (a ++ '\n' :: b) = a :: splitNl b := by
  induction a with
  | nil => simpa using splitNl_cons_nl b
  | cons c a' ih =>
    have hc : ¬(c = '\n') := h c (by simp)
    rw [List.cons_append, splitNl_cons_of_ne _ hc,
      ih (fun d hd => h d (by simp [hd]))]
    simp

theorem intercalate_nl_single (a : List Char) : List.intercalate ['\n'] [a] = a := by
  simp [List.intercalate]

theorem intercalate_nl_cons (a b : List Char) (rs : List (List Char)) :
    List.intercalate ['\n'] (a :: b :: rs) = a ++ '\n' :: List.intercalate ['\n'] (b :: rs) := by
  simp [List.intercalate, List.intersperse]

theorem intercalate_splitNl (t : List Char) :
    List.intercalate ['\n'] (splitNl t) = t := by
  induction t with
  | nil => rfl
  | cons c t' ih =>
    by_cases h : c = '\n'
    · rw [h, splitNl_cons_nl]
      cases hs : splitNl t' with
      | nil => exact absurd hs (splitNl_ne_nil t')
      | cons r rs =>
        rw [hs] at ih
        rw [intercalate_nl_cons, ih]
        rfl
    · rw [splitNl_cons_of_ne t' h]
      cases hs : splitNl t' with
      | nil => exact absurd hs (splitNl_ne_nil t')
      | cons r rs =>
        rw [hs] at ih
        cases rs with
        | nil =>
          rw [intercalate_nl_single] at ih
          simp [intercalate_nl_single, ih]
        | cons r2 rs2 =>
          rw [intercalate_nl_cons] at ih
          simp only [List.headD_cons, List.tail_cons]
          rw [intercalate_nl_cons]
          rw [← ih]
          simp

theorem splitNl_lines_no_nl (t : List Char) :
    ∀ line ∈ splitNl t, ∀ c ∈ line, ¬(c = '\n') := by
  induction t with
  | nil => intro line hl c hc; simp [splitNl_nil] at hl; simp [hl] at hc
  | cons a t' ih =>
    by_cases h : a = '\n'
    · rw [h, splitNl_cons_nl]
      intro line hl
      rcases List.mem_cons.mp hl with h1 | h2
      · simp [h1]
      · exact ih line h2
    · rw [splitNl_cons_of_ne t' h]
      intro line hl
      rcases List.mem_cons.mp hl with h1 | h2
      · subst h1
        intro c hc
        rcases List.mem_cons.mp hc with h3 | h4
        · simpa [h3] using h
        · cases hs : splitNl t' with
          | nil => exact absurd hs (splitNl_ne_nil t')
          | cons r rs =>
            have : r ∈ splitNl t' := by simp [hs]
            exact ih r this c (by simpa [hs] using h4)
      · cases hs : splitNl t' with
        | nil => exact absurd hs (splitNl_ne_nil t')
        | cons r rs =>
          have : line ∈ splitNl t' := by
            rw [hs]
            rw [hs] at h2
            simp at h2
            simp [h2]
          exact ih line this

theorem splitNl_decomp {t L : List Char} {rs : List (List Char)}
    (h : splitNl t = L :: rs) (hrs : rs ≠ []) :
    ∃ t', t = L ++ '\n' :: t' ∧ splitNl t' = rs ∧ ∀ c ∈ L, ¬(c = '\n') := by
  induction t generalizing L rs with
  | nil =>
    rw [splitNl_nil] at h
    injection h with h1 h2
    exact absurd h2.symm hrs
  | cons a t' ih =>
    by_cases ha : a = '\n'
    · subst ha
      rw [splitNl_cons_nl] at h
      injection h with h1 h2
      refine ⟨t', ?_, h2, ?_⟩
      · rw [← h1]; rfl
      · rw [← h1]; intro c hc; simp at hc
    · rw [splitNl_cons_of_ne t' ha] at h
      cases hs : splitNl t' with
      | nil => exact absurd hs (splitNl_ne_nil t')
      | cons L0 rs0 =>
        rw [hs] at h
        simp at h
        obtain ⟨hL, hrs0⟩ := h
        cases rs0 with
        | nil => exact absurd hrs0.symm (by simpa [← hrs0] using hrs)
        | cons q qs =>
          obtain ⟨t'', ht, hsp, hnl⟩ := ih hs (by simp)
          refine ⟨t'', ?_, ?_, ?_⟩
          · rw [← hL, ht]
            simp
          · rw [hsp, hrs0]
          · intro c hc
            rw [← hL] at hc
            rcases List.mem_cons.mp hc with h1 | h2
            · simpa [h1] using ha
            · exact hnl c h2

/-! ## Separator freedom -/

theorem sepLen_nil : sepLen [] = none := rfl

theorem sepLen_cons_nl (rest : List Char) :
    sepLen ('\n' :: rest) =
      match lastNlIdx (rest.takeWhile isWs) with
      | some j => some (j + 2)
      | none => none := rfl

theorem sepLen_cons_ne {c : Char} (rest : List Char) (h : ¬(c = '\n')) :
    sepLen (c :: rest) = none := by
  unfold sepLen
  split
  · rename_i r2 heq
    injection heq with h1 h2
    exact absurd h1 h
  · rfl

theorem lastNlIdx_some_mem {run : List Char} {j : Nat}
    (h : lastNlIdx run = some j) : '\n' ∈ run := by
  unfold lastNlIdx at h
  rw [Option.map_eq_some'] at h
  obtain ⟨q, hq, _⟩ := h
  have hmem : '\n' ∈ run.reverse := by
    by_contra hno
    have hnone : List.findIdx? (fun c => decide (c = '\n')) run.reverse = none :=
      List.findIdx?_eq_none_iff.mpr (by
        intro x hx
        simp only [decide_eq_false_iff_not]
        intro he
        exact hno (he ▸ hx))
    rw [hnone] at hq
    cases hq
  simpa using hmem

theorem sepLen_none_of_run {rest : List Char}
    (h : ∀ d ∈ rest.takeWhile isWs, ¬(d = '\n')) :
    sepLen ('\n' :: rest) = none := by
  rw [sepLen_cons_nl]
  have hidx : lastNlIdx (rest.takeWhile isWs) = none := by
    unfold lastNlIdx
    rw [List.findIdx?_eq_none_iff.mpr]
    · rfl
    · intro x hx
      simp only [decide_eq_false_iff_not]
      exact fun hh => h x (by simpa using hx) hh
  rw [hidx]

theorem sepLen_some_of_run {rest : List Char}
    (h : '\n' ∈ rest.takeWhile isWs) :
    ∃ k, sepLen ('\n' :: rest) = some k := by
  rw [sepLen_cons_nl]
  cases hidx : lastNlIdx (rest.takeWhile isWs) with
  | some j => exact ⟨j + 2, rfl⟩
  | none =>
    exfalso
    unfold lastNlIdx at hidx
    rw [Option.map_eq_none'] at hidx
    rw [List.findIdx?_eq_none_iff] at hidx
    have := hidx '\n' (by simpa using h)
    simp at this

theorem mem_takeWhile_append {p : Char → Bool} {a : Char} :
    ∀ {l : List Char} (z : List Char), a ∈ l.takeWhile p → a ∈ (l ++ z).takeWhile p := by
  intro l
  induction l with
  | nil => intro z h; simp [List.takeWhile] at h
  | cons c l' ih =>
    intro z h
    rw [List.takeWhile_cons] at h
    by_cases hc : p c
    · rw [List.cons_append, List.takeWhile_cons, if_pos hc]
      rw [if_pos hc] at h
      rcases List.mem_cons.mp h with h1 | h2
      · simp [h1]
      · exact List.mem_cons_of_mem c (ih z h2)
    · rw [if_neg hc] at h
      simp at h

/-- A separator match survives appending more characters on the right. -/
theorem sepLen_some_append {u : List Char} {k : Nat} (z : List Char)
    (h : sepLen u = some k) : ∃ q, sepLen (u ++ z) = some q := by
  cases u with
  | nil => simp [sepLen_nil] at h
  | cons c u' =>
    by_cases hc : c = '\n'
    · subst hc
      rw [sepLen_cons_nl] at h
      cases hidx : lastNlIdx (u'.takeWhile isWs) with
      | none => rw [hidx] at h; simp at h
      | some j =>
        have hmem : '\n' ∈ u'.takeWhile isWs := lastNlIdx_some_mem hidx
        have : '\n' ∈ (u' ++ z).takeWhile isWs := mem_takeWhile_append z hmem
        exact sepLen_some_of_run this
    · rw [sepLen_cons_ne u' hc] at h
      simp at h

/-- The no separator anywhere property. -/
def SepFree (l : List Char) : Prop := ∀ i, sepLen (l.drop i) = none

theorem sepFree_nil : SepFree [] := by
  intro i
  simp [sepLen_nil]

theorem sepLen_none_of_append {u z : List Char}
    (h : sepLen (u ++ z) = none) : sepLen u = none := by
  cases hu : sepLen u with
  | none => rfl
  | some k =>
    obtain ⟨q, hq⟩ := sepLen_some_append z hu
    rw [hq] at h
    exact absurd h (by simp)

theorem sepFree_append_left {a b : List Char} (h : SepFree (a ++ b)) : SepFree a := by
  intro i
  by_cases hi : i ≤ a.length
  · have := h i
    rw [List.drop_append_of_le_length hi] at this
    exact sepLen_none_of_append this
  · rw [List.drop_eq_nil_of_le (by omega)]
    exact sepLen_nil

theorem sepFree_append_right {a b : List Char} (h : SepFree (a ++ b)) : SepFree b := by
  intro i
  have := h (a.length + i)
  rwa [List.drop_append i] at this

theorem takeWhile_dropWhile_decomp (p : Char → Bool) (l : List Char) :
    l = l.takeWhile p ++ l.dropWhile p := by
  simp

/-- The trimmed list sits inside the original as a middle factor. -/
theorem trimL_decomp (l : List Char) : ∃ p1 p2, l = p1 ++ trimL l ++ p2 := by
  refine ⟨l.takeWhile isWs, ((l.dropWhile isWs).reverse.takeWhile isWs).reverse, ?_⟩
  have h1 : l = l.takeWhile isWs ++ l.dropWhile isWs := takeWhile_dropWhile_decomp isWs l
  have h2 : l.dropWhile isWs =
      trimL l ++ ((l.dropWhile isWs).reverse.takeWhile isWs).reverse := by
    have h3 : (l.dropWhile isWs).reverse =
        (l.dropWhile isWs).reverse.takeWhile isWs ++ (l.dropWhile isWs).reverse.dropWhile isWs :=
      takeWhile_dropWhile_decomp isWs (l.dropWhile isWs).reverse
    have h4 := congrArg List.reverse h3
    rw [List.reverse_reverse, List.reverse_append] at h4
    exact h4
  rw [List.append_assoc, ← h2]
  exact h1

theorem sepFree_trimL {l : List Char} (h : SepFree l) : SepFree (trimL l) := by
  obtain ⟨p1, p2, hd⟩ := trimL_decomp l
  rw [hd] at h
  rw [List.append_assoc] at h
  exact sepFree_append_left (sepFree_append_right h)

/-- On separator free input the scanner yields a single block. -/
theorem splitGo_of_sepFree :
    ∀ (l acc : List Char), SepFree l → splitGo l acc = [acc.reverse ++ l] := by
  intro l
  induction l with
  | nil =>
    intro acc _
    rw [splitGo_eq]
    simp [sepLen_nil]
  | cons c rest ih =>
    intro acc h
    rw [splitGo_eq]
    have h0 : sepLen (c :: rest) = none := by simpa using h 0
    rw [h0]
    have hrest : SepFree rest := by
      intro i
      simpa using h (i + 1)
    show splitGo rest (c :: acc) = _
    rw [ih (c :: acc) hrest]
    simp

/-- Scanning a block followed by a separator cuts exactly at the
separator. -/
theorem splitGo_append_sep :
    ∀ (front : List Char) {tail : List Char} {k : Nat} (acc : List Char),
      (∀ i < front.length, sepLen (front.drop i ++ tail) = none) →
      sepLen tail = some k →
      splitGo (front ++ tail) acc = (acc.reverse ++ front) :: splitGo (tail.drop k) [] := by
  intro front
  induction front with
  | nil =>
    intro tail k acc _ hsep
    rw [List.nil_append, splitGo_eq, hsep]
    simp
  | cons c front' ih =>
    intro tail k acc hfront hsep
    rw [List.cons_append, splitGo_eq]
    have h0 : sepLen (c :: (front' ++ tail)) = none := by
      simpa using hfront 0 (by simp)
    rw [h0]
    have hfront' : ∀ i < front'.length, sepLen (front'.drop i ++ tail) = none := by
      intro i hi
      simpa using hfront (i + 1) (by simp; omega)
    show splitGo (front' ++ tail) (c :: acc) = _
    rw [ih (c :: acc) hfront' hsep]
    simp

/-- Every block produced by the splitter contains no separator match. -/
theorem splitGo_blocks_sepFree :
    ∀ (n : Nat) (l acc : List Char), l.length ≤ n →
      (∀ i < acc.length, sepLen (acc.reverse.drop i ++ l) = none) →
      ∀ b ∈ splitGo l acc, SepFree b := by
  intro n
  induction n with
  | zero =>
    intro l acc hlen hinv b hb
    have hl : l = [] := by
      cases l with
      | nil => rfl
      | cons x xs => simp at hlen
    subst hl
    rw [splitGo_eq] at hb
    simp only [sepLen_nil] at hb
    simp at hb
    subst hb
    intro i
    by_cases hi : i < acc.reverse.length
    · have := hinv i (by simpa using hi)
      simpa using this
    · rw [List.drop_eq_nil_of_le (by omega)]
      exact sepLen_nil
  | succ n ih =>
    intro l acc hlen hinv b hb
    rw [splitGo_eq] at hb
    cases hsep : sepLen l with
    | some k =>
      rw [hsep] at hb
      dsimp only at hb
      have hk := sepLen_some hsep
      rcases List.mem_cons.mp hb with h1 | h2
      · subst h1
        intro i
        by_cases hi : i < acc.reverse.length
        · exact sepLen_none_of_append (hinv i (by simpa using hi))
        · rw [List.drop_eq_nil_of_le (by omega)]
          exact sepLen_nil
      · refine ih (l.drop k) [] ?_ ?_ b h2
        · simp only [List.length_drop]
          omega
        · intro i hi
          simp at hi
    | none =>
      rw [hsep] at hb
      dsimp only at hb
      cases l with
      | nil =>
        simp at hb
        subst hb
        intro i
        by_cases hi : i < acc.reverse.length
        · have := hinv i (by simpa using hi)
          simpa using this
        · rw [List.drop_eq_nil_of_le (by omega)]
          exact sepLen_nil
      | cons c rest =>
        refine ih rest (c :: acc) (by simpa using hlen) ?_ b hb
        intro i hi
        simp only [List.length_cons] at hi
        have hrev : (c :: acc).reverse = acc.reverse ++ [c] := by simp
        rw [hrev]
        by_cases hia : i ≤ acc.length
        · rw [List.drop_append_of_le_length (by simpa using hia)]
          by_cases hia2 : i < acc.length
          · have := hinv i hia2
            simpa using this
          · have hieq : i = acc.length := by omega
            subst hieq
            rw [List.drop_eq_nil_of_le (by simp)]
            simpa using hsep
        · omega

theorem splitSep_sepFree (l : List Char) : ∀ b ∈ splitSep l, SepFree b := by
  intro b hb
  exact splitGo_blocks_sepFree l.length l [] le_rfl (by intro i hi; simp at hi) b hb

theorem sepFree_cons {c : Char} {t : List Char} (h : SepFree (c :: t)) : SepFree t := by
  intro i
  simpa using h (i + 1)

theorem nl_mem_takeWhile_all_ws {L X : List Char} (h : ∀ c ∈ L, isWs c = true) :
    '\n' ∈ (L ++ '\n' :: X).takeWhile isWs := by
  induction L with
  | nil =>
    rw [List.nil_append, List.takeWhile_cons, if_pos (by simp [isWs])]
    simp
  | cons c L' ih =>
    rw [List.cons_append, List.takeWhile_cons, if_pos (h c (by simp))]
    exact List.mem_cons_of_mem c (ih (fun d hd => h d (by simp [hd])))

/-- Interior lines of a separator free text contain a non whitespace
character. -/
theorem sepFree_interior_lines :
    ∀ (t : List Char), SepFree t →
      ∀ line ∈ (splitNl t).tail.dropLast, ∃ c ∈ line, isWs c = false := by
  intro t
  induction t with
  | nil =>
    intro _ line hl
    simp [splitNl_nil] at hl
  | cons a t' ih =>
    intro h line hl
    by_cases ha : a = '\n'
    · subst ha
      rw [splitNl_cons_nl] at hl
      simp only [List.tail_cons] at hl
      cases hs : splitNl t' with
      | nil => exact absurd hs (splitNl_ne_nil t')
      | cons L0 rs0 =>
        rw [hs] at hl
        cases rs0 with
        | nil => simp at hl
        | cons q qs =>
          rw [List.dropLast_cons_of_ne_nil (by simp)] at hl
          rcases List.mem_cons.mp hl with h1 | h2
          · subst h1
            obtain ⟨t'', ht, _, _⟩ := splitNl_decomp hs (by simp)
            by_contra hno
            push_neg at hno
            have hall : ∀ c ∈ line, isWs c = true := by
              intro c hc
              have := hno c hc
              cases hcw : isWs c
              · exact absurd hcw this
              · rfl
            have hmem : '\n' ∈ (t'.takeWhile isWs) := by
              rw [ht]
              exact nl_mem_takeWhile_all_ws hall
            obtain ⟨k, hk⟩ := sepLen_some_of_run hmem
            have := h 0
            simp only [List.drop_zero] at this
            rw [this] at hk
            cases hk
          · have : line ∈ (splitNl t').tail.dropLast := by
              rw [hs]
              simpa using h2
            exact ih (sepFree_cons h) line this
    · rw [splitNl_cons_of_ne t' ha] at hl
      simp only [List.tail_cons] at hl
      have : line ∈ (splitNl t').tail.dropLast := hl
      exact ih (sepFree_cons h) line this

/-- The last line of a text whose final character is not whitespace
contains a non whitespace character. -/
theorem last_line_good :
    ∀ (t : List Char), t ≠ [] →
      (∀ c, t.getLast? = some c → isWs c = false) →
      ∀ line, (splitNl t).getLast? = some line → ∃ c ∈ line, isWs c = false := by
  intro t
  induction t with
  | nil => intro h; exact absurd rfl h
  | cons x t' ih =>
    intro _ hlast line hline
    cases t' with
    | nil =>
      have hx : isWs x = false := hlast x rfl
      have hxn : ¬(x = '\n') := by
        intro he
        rw [he] at hx
        simp [isWs] at hx
      rw [splitNl_no_nl (by intro c hc; simp at hc; simpa [hc] using hxn)] at hline
      simp at hline
      exact ⟨x, by simp [← hline], hx⟩
    | cons y t'' =>
      have hlast' : ∀ c, (y :: t'').getLast? = some c → isWs c = false := by
        intro c hc
        refine hlast c ?_
        rwa [getLast?_cons_ne x (by simp)]
      by_cases hx : x = '\n'
      · subst hx
        rw [splitNl_cons_nl] at hline
        rw [getLast?_cons_ne [] (splitNl_ne_nil (y :: t''))] at hline
        exact ih (by simp) hlast' line hline
      · rw [splitNl_cons_of_ne (y :: t'') hx] at hline
        cases hs : splitNl (y :: t'') with
        | nil => exact absurd hs (splitNl_ne_nil (y :: t''))
        | cons L0 rs0 =>
          rw [hs] at hline
          simp only [List.headD_cons, List.tail_cons] at hline
          cases rs0 with
          | nil =>
            simp only [List.getLast?_singleton, Option.some.injEq] at hline
            obtain ⟨c, hc, hcw⟩ := ih (by simp) hlast' L0 (by rw [hs]; rfl)
            exact ⟨c, by rw [← hline]; simp [hc], hcw⟩
          | cons q qs =>
            rw [getLast?_cons_ne _ (by simp)] at hline
            refine ih (by simp) hlast' line ?_
            rw [hs, getLast?_cons_ne _ (by simp)]
            exact hline

theorem mem_dropLast_or_getLast {α : Type _} :
    ∀ (l : List α) (a : α), a ∈ l → a ∈ l.dropLast ∨ l.getLast? = some a := by
  intro l
  induction l with
  | nil => intro a ha; simp at ha
  | cons x t ih =>
    intro a ha
    cases t with
    | nil =>
      simp at ha
      right
      simp [ha]
    | cons y t' =>
      rcases List.mem_cons.mp ha with h1 | h2
      · left
        rw [List.dropLast_cons_of_ne_nil (by simp)]
        simp [h1]
      · rcases ih a h2 with h3 | h4
        · left
          rw [List.dropLast_cons_of_ne_nil (by simp)]
          exact List.mem_cons_of_mem x h3
        · right
          rwa [getLast?_cons_ne x (by simp)]

/-- All lines after the first of a separator free text ending in a non
whitespace character contain a non whitespace character. -/
theorem tail_lines_good {t : List Char} (hsf : SepFree t)
    (hlast : ∀ c, t.getLast? = some c → isWs c = false) :
    ∀ line ∈ (splitNl t).tail, ∃ c ∈ line, isWs c = false := by
  intro line hl
  rcases mem_dropLast_or_getLast _ line hl with h1 | h2
  · exact sepFree_interior_lines t hsf line h1
  · have hne : t ≠ [] := by
      intro hh
      subst hh
      simp [splitNl_nil] at hl
    refine last_line_good t hne hlast line ?_
    cases hs : splitNl t with
    | nil => exact absurd hs (splitNl_ne_nil t)
    | cons L0 rs0 =>
      rw [hs] at h2 hl
      simp only [List.tail_cons] at h2 hl
      have hrs : rs0 ≠ [] := by
        intro hh
        rw [hh] at hl
        simp at hl
      rw [getLast?_cons_ne _ hrs]
      exact h2

/-! ## Trim and rendering facts -/

theorem trimL_head?_not_ws {l : List Char} {c : Char}
    (h : (trimL l).head? = some c) : isWs c = false := by
  obtain ⟨p1, p2, hd⟩ := trimL_decomp l
  have hne : trimL l ≠ [] := by
    intro hh
    rw [hh] at h
    cases h
  have hdw : l.dropWhile isWs = trimL l ++ ((l.dropWhile isWs).reverse.takeWhile isWs).reverse := by
    have h3 : (l.dropWhile isWs).reverse =
        (l.dropWhile isWs).reverse.takeWhile isWs ++ (l.dropWhile isWs).reverse.dropWhile isWs :=
      (takeWhile_dropWhile_decomp isWs (l.dropWhile isWs).reverse)
    have h4 := congrArg List.reverse h3
    rw [List.reverse_reverse, List.reverse_append] at h4
    exact h4
  cases htr : trimL l with
  | nil => exact absurd htr hne
  | cons x xs =>
    rw [htr] at h
    simp only [List.head?_cons, Option.some.injEq] at h
    subst h
    rw [htr] at hdw
    exact dropWhile_head_not hdw

theorem trimL_getLast?_not_ws {l : List Char} {c : Char}
    (h : (trimL l).getLast? = some c) : isWs c = false := by
  unfold trimL at h
  rw [List.getLast?_reverse] at h
  cases hdw : ((l.dropWhile isWs).reverse.dropWhile isWs) with
  | nil => rw [hdw] at h; cases h
  | cons x xs =>
    rw [hdw] at h
    simp only [List.head?_cons, Option.some.injEq] at h
    subst h
    exact dropWhile_head_not hdw

theorem trimL_eq_self {l : List Char}
    (hh : ∀ c, l.head? = some c → isWs c = false)
    (hl : ∀ c, l.getLast? = some c → isWs c = false) : trimL l = l := by
  cases l with
  | nil => rfl
  | cons x xs =>
    have hx : isWs x = false := hh x rfl
    have hd : (x :: xs).dropWhile isWs = x :: xs := by
      rw [List.dropWhile_cons, hx]
      simp
    unfold trimL
    rw [hd]
    have hlast : ∀ c, (x :: xs).reverse.head? = some c → isWs c = false := by
      intro c hc
      rw [List.head?_reverse] at hc
      exact hl c hc
    cases hrev : (x :: xs).reverse with
    | nil => simp at hrev
    | cons y ys =>
      have hy : isWs y = false := hlast y (by rw [hrev]; rfl)
      have hdys : List.dropWhile isWs (y :: ys) = y :: ys := by
        rw [List.dropWhile_cons, hy]
        simp
      rw [hdys]
      have h5 := congrArg List.reverse hrev
      rw [List.reverse_reverse] at h5
      exact h5.symm

theorem natToChars_ne_nil (n : Nat) : natToChars n ≠ [] := by
  rw [natToChars_eq]
  by_cases h : n < 10
  · simp [h]
  · simp [h]

theorem intToChars_chars (i : Int) :
    ∀ c ∈ intToChars i, c.isDigit = true ∨ c = '-' := by
  unfold intToChars
  by_cases h : i < 0
  · rw [if_pos h]
    intro c hc
    rcases List.mem_cons.mp hc with h1 | h2
    · right; exact h1
    · left; exact natToChars_all_digits _ c h2
  · rw [if_neg h]
    intro c hc
    left
    exact natToChars_all_digits _ c hc

theorem intToChars_not_ws {i : Int} {c : Char} (h : c ∈ intToChars i) :
    isWs c = false ∧ ¬(c = '\n') ∧ ¬(c = '\r') := by
  rcases intToChars_chars i c h with h1 | h2
  · refine ⟨digit_not_ws h1, ?_, ?_⟩
    · exact digit_ne_of_toNat h1 (by left; decide)
    · exact digit_ne_of_toNat h1 (by left; decide)
  · subst h2
    refine ⟨by decide, by decide, by decide⟩

theorem parseIntJS_intToChars (i : Int) : parseIntJS (intToChars i) = some i := by
  by_cases h : i < 0
  · have hi : intToChars i = '-' :: natToChars (-i).toNat := by
      unfold intToChars
      rw [if_pos h]
    rw [hi]
    have htake : (natToChars (-i).toNat).takeWhile Char.isDigit = natToChars (-i).toNat :=
      List.takeWhile_eq_self_iff.mpr (natToChars_all_digits _)
    have hstep : parseIntJS ('-' :: natToChars (-i).toNat) =
        if ((natToChars (-i).toNat).takeWhile Char.isDigit).isEmpty then none
        else some (-1 *
          ((natOfDigits ((natToChars (-i).toNat).takeWhile Char.isDigit) : Nat) : Int)) := rfl
    obtain ⟨c, cs, hc⟩ : ∃ c cs, natToChars (-i).toNat = c :: cs := by
      cases hh : natToChars (-i).toNat with
      | nil => exact absurd hh (natToChars_ne_nil _)
      | cons c cs => exact ⟨c, cs, rfl⟩
    rw [hstep, htake, if_neg (by simp [hc])]
    rw [natOfDigits_natToChars]
    congr 1
    rw [Int.toNat_of_nonneg (by omega)]
    ring
  · have hi : intToChars i = natToChars i.toNat := by
      unfold intToChars
      rw [if_neg h]
    rw [hi]
    obtain ⟨c, cs, hc⟩ : ∃ c cs, natToChars i.toNat = c :: cs := by
      cases hh : natToChars i.toNat with
      | nil => exact absurd hh (natToChars_ne_nil _)
      | cons c cs => exact ⟨c, cs, rfl⟩
    have heq : parseIntJS (natToChars i.toNat) =
        some ((natOfDigits (natToChars i.toNat) : Nat) : Int) :=
      parseIntJS_digits (by rw [hc]; simp) (natToChars_all_digits _)
    rw [heq, natOfDigits_natToChars]
    congr 1
    rw [Int.toNat_of_nonneg (by omega)]

/-! ## Block structure of the serializer output -/

/-- The timing line rendered by stringifySrt. -/
def timeLine (e : SrtEntry) : List Char :=
  msToTime e.startTime ++ ' ' :: '-' :: '-' :: '>' :: ' ' :: msToTime e.endTime

/-- The rendered block with the trailing newline of an empty text removed:
this is what the reparse recovers after trimming. -/
def coreBlock (e : SrtEntry) : List Char :=
  intToChars e.id ++ '\n' :: (timeLine e ++ if e.text = [] then [] else '\n' :: e.text)

theorem entryBlock_eq (e : SrtEntry) :
    entryBlock e = intToChars e.id ++ '\n' :: (timeLine e ++ '\n' :: e.text) := by
  simp [entryBlock, timeLine]

theorem msToTime_int_chars {v : Int} (h0 : 0 ≤ v) (h1 : v < 360000000) :
    ∀ c ∈ msToTime v, c.isDigit = true ∨ c = ':' ∨ c = ',' := by
  have hv : v = ((v.toNat : Nat) : Int) := (Int.toNat_of_nonneg h0).symm
  have hlt : v.toNat < 360000000 := by omega
  rw [hv, msToTime_digits v.toNat hlt]
  intro c hc
  have h1000a : v.toNat / 3600000 / 10 < 10 := by omega
  have h1000b : v.toNat / 3600000 % 10 < 10 := by omega
  have h1000c : v.toNat / 60000 % 60 / 10 < 10 := by omega
  have h1000d : v.toNat / 60000 % 60 % 10 < 10 := by omega
  have h1000e : v.toNat / 1000 % 60 / 10 < 10 := by omega
  have h1000f : v.toNat / 1000 % 60 % 10 < 10 := by omega
  have h1000g : v.toNat % 1000 / 100 < 10 := by omega
  have h1000h : v.toNat % 1000 / 10 % 10 < 10 := by omega
  have h1000i : v.toNat % 1000 % 10 < 10 := by omega
  simp only [List.mem_cons, List.not_mem_nil, or_false] at hc
  rcases hc with rfl | rfl | rfl | rfl | rfl | rfl | rfl | rfl | rfl | rfl | rfl | rfl
  · exact Or.inl (digitCh_isDigit h1000a)
  · exact Or.inl (digitCh_isDigit h1000b)
  · exact Or.inr (Or.inl rfl)
  · exact Or.inl (digitCh_isDigit h1000c)
  · exact Or.inl (digitCh_isDigit h1000d)
  · exact Or.inr (Or.inl rfl)
  · exact Or.inl (digitCh_isDigit h1000e)
  · exact Or.inl (digitCh_isDigit h1000f)
  · exact Or.inr (Or.inr rfl)
  · exact Or.inl (digitCh_isDigit h1000g)
  · exact Or.inl (digitCh_isDigit h1000h)
  · exact Or.inl (digitCh_isDigit h1000i)

theorem msToTime_not_nl {v : Int} (h0 : 0 ≤ v) (h1 : v < 360000000) :
    ∀ c ∈ msToTime v, ¬(c = '\n') ∧ ¬(c = '\r') ∧ isWs c = false := by
  intro c hc
  rcases msToTime_int_chars h0 h1 c hc with h | h | h
  · exact ⟨digit_ne_of_toNat h (by left; decide),
      digit_ne_of_toNat h (by left; decide), digit_not_ws h⟩
  · subst h; refine ⟨by decide, by decide, by decide⟩
  · subst h; refine ⟨by decide, by decide, by decide⟩

theorem timeLine_chars (e : SrtEntry)
    (hs0 : 0 ≤ e.startTime) (hs1 : e.startTime < 360000000)
    (he0 : 0 ≤ e.endTime) (he1 : e.endTime < 360000000) :
    ∀ c ∈ timeLine e, ¬(c = '\n') ∧ ¬(c = '\r') := by
  intro c hc
  unfold timeLine at hc
  rcases List.mem_append.mp hc with h | h
  · obtain ⟨a, b, _⟩ := msToTime_not_nl hs0 hs1 c h
    exact ⟨a, b⟩
  · simp only [List.mem_cons] at h
    rcases h with rfl | rfl | rfl | rfl | rfl | h
    · refine ⟨by decide, by decide⟩
    · refine ⟨by decide, by decide⟩
    · refine ⟨by decide, by decide⟩
    · refine ⟨by decide, by decide⟩
    · refine ⟨by decide, by decide⟩
    · obtain ⟨a, b, _⟩ := msToTime_not_nl he0 he1 c h
      exact ⟨a, b⟩

theorem searchTime_cons (c : Char) (rest : List Char) :
    searchTime (c :: rest) = (tryTimeAt (c :: rest) <|> searchTime rest) := rfl

/-- The timing line search succeeds at position zero on the rendered
timing line. -/
theorem tryTimeAt_build (a0 a1 a2 a3 a4 a5 a6 a7 a8 b0 b1 b2 b3 b4 b5 b6 b7 b8 : Char)
    (ha0 : a0.isDigit = true) (ha1 : a1.isDigit = true) (ha2 : a2.isDigit = true)
    (ha3 : a3.isDigit = true) (ha4 : a4.isDigit = true) (ha5 : a5.isDigit = true)
    (ha6 : a6.isDigit = true) (ha7 : a7.isDigit = true) (ha8 : a8.isDigit = true)
    (hb0 : b0.isDigit = true) (hb1 : b1.isDigit = true) (hb2 : b2.isDigit = true)
    (hb3 : b3.isDigit = true) (hb4 : b4.isDigit = true) (hb5 : b5.isDigit = true)
    (hb6 : b6.isDigit = true) (hb7 : b7.isDigit = true) (hb8 : b8.isDigit = true) :
    tryTimeAt (a0 :: a1 :: ':' :: a2 :: a3 :: ':' :: a4 :: a5 :: ',' :: a6 :: a7 :: a8 ::
        ' ' :: '-' :: '-' :: '>' :: ' ' ::
        b0 :: b1 :: ':' :: b2 :: b3 :: ':' :: b4 :: b5 :: ',' :: b6 :: b7 :: [b8]) =
      some ([a0, a1, ':', a2, a3, ':', a4, a5, ',', a6, a7, a8],
            [b0, b1, ':', b2, b3, ':', b4, b5, ',', b6, b7, b8]) := by
  have e1 := matchTS_build a0 a1 a2 a3 a4 a5 a6 a7 a8
    (' ' :: '-' :: '-' :: '>' :: ' ' ::
      b0 :: b1 :: ':' :: b2 :: b3 :: ':' :: b4 :: b5 :: ',' :: b6 :: b7 :: [b8])
    ha0 ha1 ha2 ha3 ha4 ha5 ha6 ha7 ha8
  have e2 := matchTS_build b0 b1 b2 b3 b4 b5 b6 b7 b8 []
    hb0 hb1 hb2 hb3 hb4 hb5 hb6 hb7 hb8
  have hd1 : (' ' :: '-' :: '-' :: '>' :: ' ' ::
      b0 :: b1 :: ':' :: b2 :: b3 :: ':' :: b4 :: b5 :: ',' :: b6 :: b7 :: [b8]).dropWhile isWs =
      '-' :: '-' :: '>' :: ' ' ::
      b0 :: b1 :: ':' :: b2 :: b3 :: ':' :: b4 :: b5 :: ',' :: b6 :: b7 :: [b8] := by
    rw [List.dropWhile_cons, if_pos (by decide), List.dropWhile_cons, if_neg (by decide)]
  have hd2 : (' ' :: b0 :: b1 :: ':' :: b2 :: b3 :: ':' :: b4 :: b5 :: ',' ::
      b6 :: b7 :: [b8]).dropWhile isWs =
      b0 :: b1 :: ':' :: b2 :: b3 :: ':' :: b4 :: b5 :: ',' :: b6 :: b7 :: [b8] := by
    rw [List.dropWhile_cons, if_pos (by decide), List.dropWhile_cons,
      if_neg (by rw [digit_not_ws hb0]; simp)]
  unfold tryTimeAt
  rw [e1]
  simp only [Option.bind_eq_bind, Option.some_bind]
  rw [hd1]
  have hlit : dropLit ['-', '-', '>'] ('-' :: '-' :: '>' :: ' ' ::
      b0 :: b1 :: ':' :: b2 :: b3 :: ':' :: b4 :: b5 :: ',' :: b6 :: b7 :: [b8]) =
      some (' ' :: b0 :: b1 :: ':' :: b2 :: b3 :: ':' :: b4 :: b5 :: ',' ::
        b6 :: b7 :: [b8]) := rfl
  rw [hlit]
  simp only [Option.some_bind]
  rw [hd2, e2]
  simp only [Option.some_bind]
  rfl

theorem searchTime_timeLine (e : SrtEntry)
    (hs0 : 0 ≤ e.startTime) (hs1 : e.startTime < 360000000)
    (he0 : 0 ≤ e.endTime) (he1 : e.endTime < 360000000) :
    searchTime (timeLine e) = some (msToTime e.startTime, msToTime e.endTime) := by
  have hv1 : e.startTime = ((e.startTime.toNat : Nat) : Int) := (Int.toNat_of_nonneg hs0).symm
  have hv2 : e.endTime = ((e.endTime.toNat : Nat) : Int) := (Int.toNat_of_nonneg he0).symm
  have hn1 : e.startTime.toNat < 360000000 := by omega
  have hn2 : e.endTime.toNat < 360000000 := by omega
  unfold timeLine
  rw [hv1, hv2, msToTime_digits e.startTime.toNat hn1, msToTime_digits e.endTime.toNat hn2]
  simp only [List.cons_append, List.nil_append]
  rw [searchTime_cons]
  rw [tryTimeAt_build _ _ _ _ _ _ _ _ _ _ _ _ _ _ _ _ _ _
    (digitCh_isDigit (by omega)) (digitCh_isDigit (by omega)) (digitCh_isDigit (by omega))
    (digitCh_isDigit (by omega)) (digitCh_isDigit (by omega)) (digitCh_isDigit (by omega))
    (digitCh_isDigit (by omega)) (digitCh_isDigit (by omega)) (digitCh_isDigit (by omega))
    (digitCh_isDigit (by omega)) (digitCh_isDigit (by omega)) (digitCh_isDigit (by omega))
    (digitCh_isDigit (by omega)) (digitCh_isDigit (by omega)) (digitCh_isDigit (by omega))
    (digitCh_isDigit (by omega)) (digitCh_isDigit (by omega)) (digitCh_isDigit (by omega))]
  rfl

theorem intToChars_ne_nil (i : Int) : intToChars i ≠ [] := by
  unfold intToChars
  by_cases hneg : i < 0
  · rw [if_pos hneg]; simp
  · rw [if_neg hneg]; exact natToChars_ne_nil _

theorem msToTime_ne_nil {v : Int} (h0 : 0 ≤ v) (h1 : v < 360000000) :
    msToTime v ≠ [] := by
  have hv : v = ((v.toNat : Nat) : Int) := (Int.toNat_of_nonneg h0).symm
  have hn : v.toNat < 360000000 := by omega
  rw [hv, msToTime_digits v.toNat hn]
  simp

theorem timeLine_getLast {e : SrtEntry} (he0 : 0 ≤ e.endTime)
    (he1 : e.endTime < 360000000) :
    ∀ c, (timeLine e).getLast? = some c → isWs c = false := by
  intro c hc
  unfold timeLine at hc
  have hne : msToTime e.endTime ≠ [] := msToTime_ne_nil he0 he1
  rw [List.getLast?_append_cons] at hc
  rw [getLast?_cons_ne _ (by simp), getLast?_cons_ne _ (by simp),
    getLast?_cons_ne _ (by simp), getLast?_cons_ne _ (by simp),
    getLast?_cons_ne _ hne] at hc
  have hv : e.endTime = ((e.endTime.toNat : Nat) : Int) := (Int.toNat_of_nonneg he0).symm
  have hn : e.endTime.toNat < 360000000 := by omega
  rw [hv, msToTime_digits e.endTime.toNat hn] at hc
  have hlast : c = digitCh (e.endTime.toNat % 1000 % 10) := by
    have : (([digitCh (e.endTime.toNat / 3600000 / 10), digitCh (e.endTime.toNat / 3600000 % 10),
      ':', digitCh (e.endTime.toNat / 60000 % 60 / 10), digitCh (e.endTime.toNat / 60000 % 60 % 10),
      ':', digitCh (e.endTime.toNat / 1000 % 60 / 10), digitCh (e.endTime.toNat / 1000 % 60 % 10),
      ',', digitCh (e.endTime.toNat % 1000 / 100), digitCh (e.endTime.toNat % 1000 / 10 % 10),
      digitCh (e.endTime.toNat % 1000 % 10)] : List Char).getLast?) =
        some (digitCh (e.endTime.toNat % 1000 % 10)) := by
      rfl
    rw [this] at hc
    exact (Option.some.inj hc).symm
  rw [hlast]
  exact digit_not_ws (digitCh_isDigit (by omega))

/-- Reparsing a rendered block recovers the entry exactly. -/
theorem parseBlock_coreBlock (e : SrtEntry)
    (hs0 : 0 ≤ e.startTime) (hs1 : e.startTime < 360000000)
    (he0 : 0 ≤ e.endTime) (he1 : e.endTime < 360000000)
    (htext : e.text = [] ∨
      ((∀ line ∈ splitNl e.text, ∃ c ∈ line, isWs c = false) ∧
       (∀ c, e.text.getLast? = some c → isWs c = false) ∧
       (∀ line ∈ splitNl e.text, ∀ c ∈ line, ¬(c = '\n')))) :
    parseBlock (coreBlock e) = some e := by
  have hidnl : ∀ c ∈ intToChars e.id, ¬(c = '\n') := fun c hc => (intToChars_not_ws hc).2.1
  have htlnl : ∀ c ∈ timeLine e, ¬(c = '\n') :=
    fun c hc => (timeLine_chars e hs0 hs1 he0 he1 c hc).1
  have hhead : ∀ c, (coreBlock e).head? = some c → isWs c = false := by
    intro c hc
    unfold coreBlock at hc
    obtain ⟨d, ds, hd⟩ : ∃ d ds, intToChars e.id = d :: ds := by
      cases hh : intToChars e.id with
      | nil => exact absurd hh (intToChars_ne_nil e.id)
      | cons d ds => exact ⟨d, ds, rfl⟩
    rw [hd] at hc
    simp only [List.cons_append, List.head?_cons, Option.some.injEq] at hc
    subst hc
    exact (intToChars_not_ws (by rw [hd]; simp)).1
  have htlne : timeLine e ≠ [] := by
    unfold timeLine
    intro hh
    rw [List.append_eq_nil] at hh
    cases hh.2
  have hlastCB : ∀ c, (coreBlock e).getLast? = some c → isWs c = false := by
    intro c hc
    rcases htext with hte | hte
    · have hcb : coreBlock e = intToChars e.id ++ '\n' :: timeLine e := by
        unfold coreBlock
        rw [if_pos hte, List.append_nil]
      rw [hcb, List.getLast?_append_cons, getLast?_cons_ne _ htlne] at hc
      exact timeLine_getLast he0 he1 c hc
    · have htne : e.text ≠ [] := by
        intro hh
        rw [hh] at hte
        obtain ⟨c2, hc2, _⟩ := hte.1 [] (by rw [splitNl_nil]; simp)
        simp at hc2
      have hcb : coreBlock e = intToChars e.id ++ '\n' :: (timeLine e ++ '\n' :: e.text) := by
        unfold coreBlock
        rw [if_neg htne]
      rw [hcb, List.getLast?_append_cons, getLast?_cons_ne _ (by simp),
        List.getLast?_append_cons, getLast?_cons_ne _ htne] at hc
      exact hte.2.1 c hc
  have htrim : trimL (coreBlock e) = coreBlock e := trimL_eq_self hhead hlastCB
  have hsplit : splitNl (coreBlock e) =
      intToChars e.id :: timeLine e ::
        (if e.text = [] then [] else splitNl e.text) := by
    unfold coreBlock
    rw [splitNl_append hidnl]
    by_cases hte : e.text = []
    · rw [if_pos hte, if_pos hte, List.append_nil, splitNl_no_nl htlnl]
    · rw [if_neg hte, if_neg hte, splitNl_append htlnl]
  unfold parseBlock
  rw [htrim, hsplit]
  dsimp only
  rw [parseIntJS_intToChars, searchTime_timeLine e hs0 hs1 he0 he1]
  dsimp only
  have hv1 : e.startTime = ((e.startTime.toNat : Nat) : Int) := (Int.toNat_of_nonneg hs0).symm
  have hv2 : e.endTime = ((e.endTime.toNat : Nat) : Int) := (Int.toNat_of_nonneg he0).symm
  have hn1 : e.startTime.toNat < 360000000 := by omega
  have hn2 : e.endTime.toNat < 360000000 := by omega
  have ht1 : timeToMs (msToTime e.startTime) = some e.startTime := by
    rw [hv1, timeToMs_msToTime e.startTime.toNat hn1]
  have ht2 : timeToMs (msToTime e.endTime) = some e.endTime := by
    rw [hv2, timeToMs_msToTime e.endTime.toNat hn2]
  rw [ht1, ht2]
  simp only [Option.getD_some]
  by_cases hte : e.text = []
  · rw [if_pos hte]
    have hi : (['\n'].intercalate ([] : List (List Char))) = e.text := by
      rw [hte]
      rfl
    rw [hi]
  · rw [if_neg hte, intercalate_splitNl]

/-! ## Trimming the serialized file -/

/-- The serialized file after the outer trim: the last block loses the
trailing newline of an empty text. -/
def trimCore : List SrtEntry → List Char
  | [] => []
  | [e] => coreBlock e
  | e :: e2 :: rest => entryBlock e ++ '\n' :: '\n' :: trimCore (e2 :: rest)

theorem intercalate_nl2_cons (a b : List Char) (rs : List (List Char)) :
    List.intercalate ['\n', '\n'] (a :: b :: rs) =
      a ++ '\n' :: '\n' :: List.intercalate ['\n', '\n'] (b :: rs) := by
  simp [List.intercalate, List.intersperse]

theorem stringify_single (e : SrtEntry) : stringifySrt [e] = entryBlock e := by
  simp [stringifySrt, List.intercalate]

theorem stringify_cons2 (e e2 : SrtEntry) (rest : List SrtEntry) :
    stringifySrt (e :: e2 :: rest) =
      entryBlock e ++ '\n' :: '\n' :: stringifySrt (e2 :: rest) := by
  unfold stringifySrt
  rw [List.map_cons]
  rw [show (e2 :: rest).map entryBlock = entryBlock e2 :: rest.map entryBlock from rfl]
  rw [intercalate_nl2_cons]

/-- Dropping trailing whitespace. -/
def dropEndWs (l : List Char) : List Char := (l.reverse.dropWhile isWs).reverse

theorem trimL_eq_dropEnd {l : List Char}
    (h : ∀ c, l.head? = some c → isWs c = false) : trimL l = dropEndWs l := by
  unfold trimL dropEndWs
  cases l with
  | nil => rfl
  | cons x xs =>
    rw [List.dropWhile_cons, h x rfl]
    simp

theorem dropEndWs_append {l m : List Char} (h : dropEndWs m ≠ []) :
    dropEndWs (l ++ m) = l ++ dropEndWs m := by
  unfold dropEndWs at h ⊢
  rw [List.reverse_append, List.dropWhile_append]
  rw [if_neg (by
    intro hh
    rw [List.isEmpty_iff] at hh
    rw [hh] at h
    simp at h)]
  rw [List.reverse_append, List.reverse_reverse]

theorem entryBlock_head_not_ws (e : SrtEntry) :
    ∀ c, (entryBlock e).head? = some c → isWs c = false := by
  intro c hc
  rw [entryBlock_eq] at hc
  obtain ⟨d, ds, hd⟩ : ∃ d ds, intToChars e.id = d :: ds := by
    cases hh : intToChars e.id with
    | nil => exact absurd hh (intToChars_ne_nil e.id)
    | cons d ds => exact ⟨d, ds, rfl⟩
  rw [hd] at hc
  simp only [List.cons_append, List.head?_cons, Option.some.injEq] at hc
  subst hc
  exact (intToChars_not_ws (by rw [hd]; simp)).1

theorem coreBlock_ne_nil (e : SrtEntry) : coreBlock e ≠ [] := by
  unfold coreBlock
  intro hh
  rw [List.append_eq_nil] at hh
  exact intToChars_ne_nil e.id hh.1

theorem trimCore_ne_nil : ∀ (es : List SrtEntry), es ≠ [] → trimCore es ≠ [] := by
  intro es
  cases es with
  | nil => intro h; exact absurd rfl h
  | cons e rest =>
    intro _
    cases rest with
    | nil => exact coreBlock_ne_nil e
    | cons e2 rest2 =>
      show entryBlock e ++ '\n' :: '\n' :: trimCore (e2 :: rest2) ≠ []
      intro hh
      rw [List.append_eq_nil] at hh
      cases hh.2

theorem trimCore_head_not_ws :
    ∀ (es : List SrtEntry), ∀ c, (trimCore es).head? = some c → isWs c = false := by
  intro es
  cases es with
  | nil => intro c hc; cases hc
  | cons e rest =>
    cases rest with
    | nil =>
      intro c hc
      have hstep : trimCore [e] = coreBlock e := rfl
      rw [hstep] at hc
      unfold coreBlock at hc
      obtain ⟨d, ds, hd⟩ : ∃ d ds, intToChars e.id = d :: ds := by
        cases hh : intToChars e.id with
        | nil => exact absurd hh (intToChars_ne_nil e.id)
        | cons d ds => exact ⟨d, ds, rfl⟩
      rw [hd] at hc
      simp only [List.cons_append, List.head?_cons, Option.some.injEq] at hc
      have hdw : isWs d = false := (intToChars_not_ws (by rw [hd]; simp)).1
      rwa [hc] at hdw
    | cons e2 rest2 =>
      intro c hc
      show isWs c = false
      have hstep : trimCore (e :: e2 :: rest2) =
          entryBlock e ++ '\n' :: '\n' :: trimCore (e2 :: rest2) := rfl
      rw [hstep] at hc
      obtain ⟨d, ds, hd⟩ : ∃ d ds, entryBlock e = d :: ds := by
        cases hh : entryBlock e with
        | nil =>
          exfalso
          have := entryBlock_eq e
          rw [hh] at this
          have h2 := congrArg List.length this
          simp at h2
          exact intToChars_ne_nil e.id (List.length_eq_zero.mp (by omega))
        | cons d ds => exact ⟨d, ds, rfl⟩
      rw [hd] at hc
      simp only [List.cons_append, List.head?_cons, Option.some.injEq] at hc
      have hdw : isWs d = false := entryBlock_head_not_ws e d (by rw [hd]; rfl)
      rwa [hc] at hdw

/-- The structural goodness of an entry text needed for the reparse. -/
def TextOK (t : List Char) : Prop :=
  t = [] ∨ ((∀ line ∈ splitNl t, ∃ c ∈ line, isWs c = false) ∧
    (∀ c, t.getLast? = some c → isWs c = false) ∧
    (∀ line ∈ splitNl t, ∀ c ∈ line, ¬(c = '\n')))

/-- The parse side invariant of an entry, together with the bounds and the
carriage return freedom assumed by the round trip. -/
def EntryInv (e : SrtEntry) : Prop :=
  0 ≤ e.startTime ∧ e.startTime < 360000000 ∧ 0 ≤ e.endTime ∧ e.endTime < 360000000 ∧
    TextOK e.text ∧ (∀ c ∈ e.text, ¬(c = '\r'))

theorem entryBlock_ne_nil (e : SrtEntry) : entryBlock e ≠ [] := by
  rw [entryBlock_eq]
  intro hh
  rw [List.append_eq_nil] at hh
  exact intToChars_ne_nil e.id hh.1

theorem head?_append_left {a b : List Char} {c : Char} (h : (a ++ b).head? = some c)
    (ha : a ≠ []) : a.head? = some c := by
  cases a with
  | nil => exact absurd rfl ha
  | cons x xs => simpa using h

theorem stringify_head_not_ws :
    ∀ (es : List SrtEntry), es ≠ [] →
      ∀ c, (stringifySrt es).head? = some c → isWs c = false := by
  intro es
  cases es with
  | nil => intro h; exact absurd rfl h
  | cons e rest =>
    intro _ c hc
    cases rest with
    | nil =>
      rw [stringify_single] at hc
      exact entryBlock_head_not_ws e c hc
    | cons e2 rest2 =>
      rw [stringify_cons2] at hc
      exact entryBlock_head_not_ws e c (head?_append_left hc (entryBlock_ne_nil e))

/-- The getLast of the rendered block before the text part. -/
theorem idTime_getLast {e : SrtEntry}
    (hs0 : 0 ≤ e.startTime) (hs1 : e.startTime < 360000000)
    (he0 : 0 ≤ e.endTime) (he1 : e.endTime < 360000000) :
    ∀ c, (intToChars e.id ++ '\n' :: timeLine e).getLast? = some c → isWs c = false := by
  intro c hc
  have htlne : timeLine e ≠ [] := by
    unfold timeLine
    intro hh
    rw [List.append_eq_nil] at hh
    cases hh.2
  rw [List.getLast?_append_cons, getLast?_cons_ne _ htlne] at hc
  exact timeLine_getLast he0 he1 c hc

/-- Trimming the serialized file yields the core blocks joined by double
newlines. -/
theorem trimL_stringify :
    ∀ (es : List SrtEntry), es ≠ [] →
      (∀ e ∈ es, 0 ≤ e.startTime ∧ e.startTime < 360000000 ∧ 0 ≤ e.endTime ∧
        e.endTime < 360000000 ∧ TextOK e.text) →
      trimL (stringifySrt es) = trimCore es := by
  intro es
  induction es with
  | nil => intro h; exact absurd rfl h
  | cons e rest ih =>
    intro _ hinv
    obtain ⟨hs0, hs1, he0, he1, htok⟩ := hinv e (by simp)
    cases rest with
    | nil =>
      rw [stringify_single]
      show trimL (entryBlock e) = coreBlock e
      rcases htok with hte | hte
      · have hblk : entryBlock e =
            (intToChars e.id ++ '\n' :: timeLine e) ++ ['\n'] := by
          rw [entryBlock_eq, hte]
          simp
        have hcore : coreBlock e = intToChars e.id ++ '\n' :: timeLine e := by
          unfold coreBlock
          rw [if_pos hte, List.append_nil]
        rw [hblk, hcore]
        rw [trimL_eq_dropEnd (by
          intro c hc
          refine entryBlock_head_not_ws e c ?_
          rw [hblk]
          exact hc)]
        unfold dropEndWs
        rw [List.reverse_append]
        show (('\n' :: (intToChars e.id ++ '\n' :: timeLine e).reverse).dropWhile
          isWs).reverse = _
        rw [List.dropWhile_cons, if_pos (by decide)]
        cases hrev : (intToChars e.id ++ '\n' :: timeLine e).reverse with
        | nil =>
          exfalso
          have hlen := congrArg List.length hrev
          simp at hlen
        | cons y ys =>
          have hy : isWs y = false := by
            refine idTime_getLast hs0 hs1 he0 he1 y ?_
            rw [← List.head?_reverse, hrev]
            rfl
          rw [List.dropWhile_cons, hy]
          simp only [Bool.false_eq_true, if_false]
          have h6 := congrArg List.reverse hrev
          rw [List.reverse_reverse] at h6
          exact h6.symm
      · have hlast : ∀ c, (entryBlock e).getLast? = some c → isWs c = false := by
          intro c hc
          have htne : e.text ≠ [] := by
            intro hh
            rw [hh] at hte
            obtain ⟨c2, hc2, _⟩ := hte.1 [] (by rw [splitNl_nil]; simp)
            simp at hc2
          rw [entryBlock_eq, List.getLast?_append_cons, getLast?_cons_ne _ (by simp),
            List.getLast?_append_cons, getLast?_cons_ne _ htne] at hc
          exact hte.2.1 c hc
        rw [trimL_eq_self (entryBlock_head_not_ws e) hlast]
        have htne : e.text ≠ [] := by
          intro hh
          rw [hh] at hte
          obtain ⟨c2, hc2, _⟩ := hte.1 [] (by rw [splitNl_nil]; simp)
          simp at hc2
        rw [entryBlock_eq]
        unfold coreBlock
        rw [if_neg htne]
    | cons e2 rest2 =>
      rw [stringify_cons2]
      have hS := ih (by simp) (by
        intro x hx
        exact hinv x (by simp [hx]))
      have hSheadws : ∀ c, (stringifySrt (e2 :: rest2)).head? = some c → isWs c = false :=
        stringify_head_not_ws (e2 :: rest2) (by simp)
      have hSne : dropEndWs (stringifySrt (e2 :: rest2)) ≠ [] := by
        rw [← trimL_eq_dropEnd hSheadws, hS]
        exact trimCore_ne_nil (e2 :: rest2) (by simp)
      have hwhole : ∀ c, (entryBlock e ++ '\n' :: '\n' :: stringifySrt (e2 :: rest2)).head? =
          some c → isWs c = false := by
        intro c hc
        exact entryBlock_head_not_ws e c (head?_append_left hc (entryBlock_ne_nil e))
      rw [trimL_eq_dropEnd hwhole]
      have hassoc : entryBlock e ++ '\n' :: '\n' :: stringifySrt (e2 :: rest2) =
          (entryBlock e ++ ['\n', '\n']) ++ stringifySrt (e2 :: rest2) := by
        simp
      rw [hassoc, dropEndWs_append hSne, ← trimL_eq_dropEnd hSheadws, hS]
      show _ = entryBlock e ++ '\n' :: '\n' :: trimCore (e2 :: rest2)
      simp

/-! ## Parse side invariants -/

theorem tryTimeAt_groups {l g1 g2 : List Char} (h : tryTimeAt l = some (g1, g2)) :
    (∃ v : Nat, timeToMs g1 = some ((v : Nat) : Int)) ∧
      (∃ w : Nat, timeToMs g2 = some ((w : Nat) : Int)) := by
  unfold tryTimeAt at h
  simp only [bind, Option.bind_eq_some, pure, Option.some.injEq, Prod.mk.injEq] at h
  obtain ⟨⟨ga, r1⟩, hm1, r2, hr2, ⟨gb, rr⟩, hm2, hg1, hg2⟩ := h
  subst hg1
  subst hg2
  obtain ⟨c0, c1, c2, c3, c4, c5, c6, c7, c8, _, hg, d0, d1, d2, d3, d4, d5, d6, d7, d8⟩ :=
    matchTS_inv hm1
  obtain ⟨e0, e1, e2, e3, e4, e5, e6, e7, e8, _, hh, f0, f1, f2, f3, f4, f5, f6, f7, f8⟩ :=
    matchTS_inv hm2
  constructor
  · subst hg
    exact ⟨_, timeToMs_digits c0 c1 c2 c3 c4 c5 c6 c7 c8 d0 d1 d2 d3 d4 d5 d6 d7 d8⟩
  · subst hh
    exact ⟨_, timeToMs_digits e0 e1 e2 e3 e4 e5 e6 e7 e8 f0 f1 f2 f3 f4 f5 f6 f7 f8⟩

theorem searchTime_groups :
    ∀ (l : List Char) {g1 g2 : List Char}, searchTime l = some (g1, g2) →
      (∃ v : Nat, timeToMs g1 = some ((v : Nat) : Int)) ∧
        (∃ w : Nat, timeToMs g2 = some ((w : Nat) : Int)) := by
  intro l
  induction l with
  | nil => intro g1 g2 h; cases h
  | cons c rest ih =>
    intro g1 g2 h
    rw [searchTime_cons] at h
    cases ht : tryTimeAt (c :: rest) with
    | some p =>
      rw [ht] at h
      simp only [Option.some_orElse, Option.some.injEq] at h
      subst h
      exact tryTimeAt_groups ht
    | none =>
      rw [ht] at h
      simp only [Option.none_orElse] at h
      exact ih h

theorem parseBlock_inv {b : List Char} {e : SrtEntry} (h : parseBlock b = some e) :
    ∃ l0 l1 rest, splitNl (trimL b) = l0 :: l1 :: rest ∧
      0 ≤ e.startTime ∧ 0 ≤ e.endTime ∧ e.text = List.intercalate ['\n'] rest := by
  unfold parseBlock at h
  cases hs : splitNl (trimL b) with
  | nil => rw [hs] at h; cases h
  | cons l0 ls =>
    cases ls with
    | nil => rw [hs] at h; cases h
    | cons l1 rest =>
      rw [hs] at h
      dsimp only at h
      refine ⟨l0, l1, rest, rfl, ?_⟩
      cases hid : parseIntJS l0 with
      | none => rw [hid] at h; cases h
      | some i =>
        cases hst : searchTime l1 with
        | none => rw [hid, hst] at h; cases h
        | some p =>
          obtain ⟨g1, g2⟩ := p
          rw [hid, hst] at h
          dsimp only at h
          obtain ⟨⟨v, hv⟩, ⟨w, hw⟩⟩ := searchTime_groups l1 hst
          injection h with h
          subst h
          refine ⟨?_, ?_, rfl⟩
          · show (0 : Int) ≤ (timeToMs g1).getD 0
            rw [hv]
            exact Int.ofNat_nonneg v
          · show (0 : Int) ≤ (timeToMs g2).getD 0
            rw [hw]
            exact Int.ofNat_nonneg w

theorem splitNl_intercalate :
    ∀ (rs : List (List Char)), rs ≠ [] →
      (∀ line ∈ rs, ∀ c ∈ line, ¬(c = '\n')) →
      splitNl (List.intercalate ['\n'] rs) = rs := by
  intro rs
  induction rs with
  | nil => intro h; exact absurd rfl h
  | cons L rs' ih =>
    intro _ hnl
    cases rs' with
    | nil =>
      rw [intercalate_nl_single]
      rw [splitNl_no_nl (hnl L (by simp))]
    | cons M rs'' =>
      rw [intercalate_nl_cons, splitNl_append (hnl L (by simp))]
      rw [ih (by simp) (fun line hl => hnl line (by simp [hl]))]

theorem getLast?_append_right {α : Type _} {b : List α} (a : List α) (h : b ≠ []) :
    (a ++ b).getLast? = b.getLast? := by
  induction a with
  | nil => rfl
  | cons x a' ih =>
    rw [List.cons_append, getLast?_cons_ne x (by
      intro hh
      rw [List.append_eq_nil] at hh
      exact h hh.2), ih]

theorem parseBlock_text_ok {b : List Char} {e : SrtEntry}
    (hsf : SepFree b) (h : parseBlock b = some e) : TextOK e.text := by
  obtain ⟨l0, l1, rest, hs, _, _, ht⟩ := parseBlock_inv h
  by_cases hte : e.text = []
  · exact Or.inl hte
  · right
    have hrest : rest ≠ [] := by
      intro hh
      rw [hh] at ht
      simp [List.intercalate] at ht
      exact hte ht
    have hsfT : SepFree (trimL b) := sepFree_trimL hsf
    have htail := tail_lines_good hsfT (fun c hc => trimL_getLast?_not_ws hc)
    have hmem : ∀ line ∈ rest, line ∈ (splitNl (trimL b)).tail := by
      intro line hl
      rw [hs]
      simp [hl]
    have hnl : ∀ line ∈ rest, ∀ c ∈ line, ¬(c = '\n') := by
      intro line hl
      exact splitNl_lines_no_nl (trimL b) line (by rw [hs]; simp [hl])
    have hsp : splitNl e.text = rest := by
      rw [ht]
      exact splitNl_intercalate rest hrest hnl
    obtain ⟨r0, rest', hr⟩ : ∃ r0 rest', rest = r0 :: rest' := by
      cases rest with
      | nil => exact absurd rfl hrest
      | cons r0 rest' => exact ⟨r0, rest', rfl⟩
    refine ⟨?_, ?_, ?_⟩
    · intro line hl
      rw [hsp] at hl
      exact htail line (hmem line hl)
    · intro c hc
      have hdecomp : trimL b = l0 ++ '\n' :: (l1 ++ '\n' :: e.text) := by
        conv_lhs => rw [← intercalate_splitNl (trimL b)]
        rw [hs, hr, intercalate_nl_cons, intercalate_nl_cons, ← hr, ← ht]
      have hlast : (trimL b).getLast? = some c := by
        rw [hdecomp, getLast?_append_right l0 (by simp),
          getLast?_cons_ne _ (by
            intro hh
            rw [List.append_eq_nil] at hh
            cases hh.2),
          getLast?_append_right l1 (by simp),
          getLast?_cons_ne _ hte]
        exact hc
      exact trimL_getLast?_not_ws hlast
    · intro line hl
      rw [hsp] at hl
      exact hnl line hl

theorem parseSrt_inv (x : List Char) :
    ∀ e ∈ parseSrt x, 0 ≤ e.startTime ∧ 0 ≤ e.endTime ∧ TextOK e.text := by
  intro e he
  unfold parseSrt at he
  obtain ⟨b, hb, hpb⟩ := List.mem_filterMap.mp he
  obtain ⟨l0, l1, rest, hs, h1, h2, ht⟩ := parseBlock_inv hpb
  exact ⟨h1, h2, parseBlock_text_ok (splitSep_sepFree _ b hb) hpb⟩


/-! ## Separator freedom of the rendered blocks -/

/-- No separator match begins inside u when u is followed by v. -/
def NoSep (u v : List Char) : Prop :=
  ∀ i, i < u.length → sepLen (u.drop i ++ v) = none

theorem noSep_append {a b v : List Char} (ha : NoSep a (b ++ v)) (hb : NoSep b v) :
    NoSep (a ++ b) v := by
  intro i hi
  rw [List.length_append] at hi
  by_cases h : i < a.length
  · have h2 := ha i h
    rw [List.drop_append_of_le_length (le_of_lt h), List.append_assoc]
    exact h2
  · have hj : i = a.length + (i - a.length) := by omega
    rw [hj, List.drop_append]
    exact hb (i - a.length) (by omega)

theorem noSep_line {L : List Char} (h : ∀ c ∈ L, ¬(c = '\n')) (v : List Char) :
    NoSep L v := by
  intro i hi
  obtain ⟨c, t, hct⟩ : ∃ c t, L.drop i = c :: t := by
    cases hd : L.drop i with
    | nil =>
      rw [List.drop_eq_nil_iff] at hd
      omega
    | cons c t => exact ⟨c, t, rfl⟩
  rw [hct, List.cons_append]
  have hc' : c ∈ L.drop i := by
    rw [hct]
    exact List.mem_cons_self c t
  exact sepLen_cons_ne _ (h c (List.mem_of_mem_drop hc'))

theorem takeWhile_no_nl {L : List Char} (v : List Char) (hgood : ∃ c ∈ L, isWs c = false)
    (hnl : ∀ c ∈ L, ¬(c = '\n')) : ¬('\n' ∈ (L ++ v).takeWhile isWs) := by
  induction L with
  | nil =>
    obtain ⟨c, hc, _⟩ := hgood
    simp at hc
  | cons a L' ih =>
    rw [List.cons_append, List.takeWhile_cons]
    cases hw : isWs a with
    | false =>
      rw [if_neg (by simp)]
      simp
    | true =>
      rw [if_pos rfl]
      intro hmem
      rcases List.mem_cons.mp hmem with h1 | h2
      · exact hnl a (List.mem_cons_self a L') h1.symm
      · obtain ⟨c, hc, hcw⟩ := hgood
        rcases List.mem_cons.mp hc with h3 | h3
        · rw [h3, hw] at hcw
          cases hcw
        · exact ih ⟨c, h3, hcw⟩ (fun d hd => hnl d (List.mem_cons_of_mem a hd)) h2

theorem goodlines_takeWhile :
    ∀ (t v : List Char), t ≠ [] →
      (∀ line ∈ splitNl t, (∃ c ∈ line, isWs c = false) ∧ (∀ c ∈ line, ¬(c = '\n'))) →
      ¬('\n' ∈ (t ++ v).takeWhile isWs) := by
  intro t v htne hgl
  cases hs : splitNl t with
  | nil => exact absurd hs (splitNl_ne_nil t)
  | cons L0 rs =>
    obtain ⟨hg0, hn0⟩ := hgl L0 (by rw [hs]; simp)
    cases rs with
    | nil =>
      have ht : t = L0 := by
        conv_lhs => rw [← intercalate_splitNl t]
        rw [hs, intercalate_nl_single]
      rw [ht]
      exact takeWhile_no_nl v hg0 hn0
    | cons L1 rs' =>
      obtain ⟨t', ht, hsp', hnlL0⟩ := splitNl_decomp hs (by simp)
      rw [ht, List.append_assoc]
      exact takeWhile_no_nl _ hg0 hn0

theorem noSep_nl {v : List Char} (h : ¬('\n' ∈ v.takeWhile isWs)) : NoSep ['\n'] v := by
  intro i hi
  have hi0 : i = 0 := by
    simp at hi
    omega
  subst hi0
  show sepLen ('\n' :: v) = none
  exact sepLen_none_of_run (fun d hd he => h (he ▸ hd))

theorem noSep_text_aux :
    ∀ (n : Nat) (t v : List Char), t.length ≤ n →
      (∀ line ∈ splitNl t, (∃ c ∈ line, isWs c = false) ∧ (∀ c ∈ line, ¬(c = '\n'))) →
      NoSep t v := by
  intro n
  induction n with
  | zero =>
    intro t v hlen _
    have ht : t = [] := List.length_eq_zero.mp (by omega)
    subst ht
    intro i hi
    simp at hi
  | succ m ih =>
    intro t v hlen hgl
    cases hs : splitNl t with
    | nil => exact absurd hs (splitNl_ne_nil t)
    | cons L0 rs =>
      cases rs with
      | nil =>
        have ht : t = L0 := by
          conv_lhs => rw [← intercalate_splitNl t]
          rw [hs, intercalate_nl_single]
        rw [ht]
        exact noSep_line (hgl L0 (by rw [hs]; simp)).2 v
      | cons L1 rs' =>
        obtain ⟨t', ht, hsp', hnlL0⟩ := splitNl_decomp hs (by simp)
        have hgl' : ∀ line ∈ splitNl t',
            (∃ c ∈ line, isWs c = false) ∧ (∀ c ∈ line, ¬(c = '\n')) := by
          intro line hl
          refine hgl line ?_
          rw [hs, hsp'] at *
          exact List.mem_cons_of_mem L0 hl
        have ht'ne : t' ≠ [] := by
          intro hh
          rw [hh, splitNl_nil] at hgl'
          obtain ⟨⟨c, hc, _⟩, _⟩ := hgl' [] (by simp)
          simp at hc
        have hlen' : t'.length ≤ m := by
          have hl2 := congrArg List.length ht
          simp at hl2
          omega
        rw [ht]
        refine noSep_append (noSep_line hnlL0 _) ?_
        show NoSep ('\n' :: t') v
        have h1 : NoSep ['\n'] (t' ++ v) :=
          noSep_nl (goodlines_takeWhile t' v ht'ne hgl')
        have h2 : NoSep t' v := ih t' v hlen' hgl'
        exact noSep_append h1 h2

theorem noSep_goodtext {t : List Char} (htok : TextOK t) (hne : t ≠ []) (v : List Char) :
    NoSep t v := by
  rcases htok with h | h
  · exact absurd h hne
  · exact noSep_text_aux t.length t v le_rfl (fun line hl => ⟨h.1 line hl, h.2.2 line hl⟩)

theorem timeLine_good (e : SrtEntry) : ∃ c ∈ timeLine e, isWs c = false := by
  refine ⟨'-', ?_, by decide⟩
  unfold timeLine
  simp

theorem noSep_coreBlock {e : SrtEntry}
    (hs0 : 0 ≤ e.startTime) (hs1 : e.startTime < 360000000)
    (he0 : 0 ≤ e.endTime) (he1 : e.endTime < 360000000)
    (htok : TextOK e.text) (v : List Char) : NoSep (coreBlock e) v := by
  have hidnl : ∀ c ∈ intToChars e.id, ¬(c = '\n') := by
    intro c hc he
    have := intToChars_not_ws hc
    rw [he] at this
    simp [isWs] at this
  have htlnl : ∀ c ∈ timeLine e, ¬(c = '\n') :=
    fun c hc => (timeLine_chars e hs0 hs1 he0 he1 c hc).1
  unfold coreBlock
  by_cases hte : e.text = []
  · rw [if_pos hte, List.append_nil]
    show NoSep (intToChars e.id ++ (['\n'] ++ timeLine e)) v
    refine noSep_append (noSep_line hidnl _) ?_
    refine noSep_append (noSep_nl ?_) (noSep_line htlnl v)
    exact takeWhile_no_nl _ (timeLine_good e) htlnl
  · rw [if_neg hte]
    show NoSep (intToChars e.id ++ (['\n'] ++ (timeLine e ++ (['\n'] ++ e.text)))) v
    refine noSep_append (noSep_line hidnl _) ?_
    refine noSep_append (noSep_nl ?_) ?_
    · rw [List.append_assoc]
      exact takeWhile_no_nl _ (timeLine_good e) htlnl
    · refine noSep_append (noSep_line htlnl _) ?_
      refine noSep_append (noSep_nl ?_) (noSep_goodtext htok hte v)
      rcases htok with h | h
      · exact absurd h hte
      · exact goodlines_takeWhile e.text v hte
          (fun line hl => ⟨h.1 line hl, h.2.2 line hl⟩)

theorem sepFree_of_noSep {l : List Char} (h : NoSep l []) : SepFree l := by
  intro i
  by_cases hi : i < l.length
  · have h2 := h i hi
    rwa [List.append_nil] at h2
  · rw [List.drop_eq_nil_of_le (by omega)]
    exact sepLen_nil

theorem sepLen_sep2 {r : List Char} {c : Char} (h : isWs c = false) :
    sepLen ('\n' :: '\n' :: c :: r) = some 2 := by
  rw [sepLen_cons_nl]
  have h1 : ('\n' :: c :: r).takeWhile isWs = ['\n'] := by
    rw [List.takeWhile_cons, if_pos (by decide), List.takeWhile_cons,
      if_neg (by simp [h])]
  rw [h1]
  rfl

theorem sepLen_sep3 {r : List Char} {c : Char} (h : isWs c = false) :
    sepLen ('\n' :: '\n' :: '\n' :: c :: r) = some 3 := by
  rw [sepLen_cons_nl]
  have h1 : ('\n' :: '\n' :: c :: r).takeWhile isWs = ['\n', '\n'] := by
    rw [List.takeWhile_cons, if_pos (by decide), List.takeWhile_cons, if_pos (by decide),
      List.takeWhile_cons, if_neg (by simp [h])]
  rw [h1]
  rfl


/-! ## Splitting the serialized file back into blocks -/

theorem splitSep_trimCore :
    ∀ (es : List SrtEntry), es ≠ [] → (∀ e ∈ es, EntryInv e) →
      splitSep (trimCore es) = es.map coreBlock := by
  intro es
  induction es with
  | nil => intro h; exact absurd rfl h
  | cons e rest ih =>
    intro _ hinv
    obtain ⟨hs0, hs1, he0, he1, htok, _⟩ := hinv e (by simp)
    cases rest with
    | nil =>
      show splitSep (coreBlock e) = [coreBlock e]
      unfold splitSep
      rw [splitGo_of_sepFree _ []
        (sepFree_of_noSep (noSep_coreBlock hs0 hs1 he0 he1 htok []))]
      rfl
    | cons e2 rest2 =>
      have hR := ih (by simp) (fun x hx => hinv x (by simp [hx]))
      have hRne : trimCore (e2 :: rest2) ≠ [] := trimCore_ne_nil _ (by simp)
      obtain ⟨r0, R', hRd⟩ : ∃ r0 R', trimCore (e2 :: rest2) = r0 :: R' := by
        cases hh : trimCore (e2 :: rest2) with
        | nil => exact absurd hh hRne
        | cons r0 R' => exact ⟨r0, R', rfl⟩
      have hr0 : isWs r0 = false := trimCore_head_not_ws _ r0 (by rw [hRd]; rfl)
      show splitSep (entryBlock e ++ '\n' :: '\n' :: trimCore (e2 :: rest2)) =
        coreBlock e :: (e2 :: rest2).map coreBlock
      by_cases hte : e.text = []
      · have hEB : entryBlock e = coreBlock e ++ ['\n'] := by
          rw [entryBlock_eq]
          unfold coreBlock
          rw [if_pos hte, hte]
          simp
        have hW : entryBlock e ++ '\n' :: '\n' :: trimCore (e2 :: rest2) =
            coreBlock e ++ '\n' :: '\n' :: '\n' :: (r0 :: R') := by
          rw [hEB, hRd]
          simp
        rw [hW]
        unfold splitSep
        rw [splitGo_append_sep (coreBlock e) []
          (fun i hi => noSep_coreBlock hs0 hs1 he0 he1 htok _ i hi)
          (sepLen_sep3 hr0)]
        rw [show ('\n' :: '\n' :: '\n' :: (r0 :: R')).drop 3 = r0 :: R' from rfl, ← hRd]
        rw [show splitGo (trimCore (e2 :: rest2)) [] = splitSep (trimCore (e2 :: rest2))
          from rfl, hR]
        rfl
      · have hEB : entryBlock e = coreBlock e := by
          rw [entryBlock_eq]
          unfold coreBlock
          rw [if_neg hte]
        have hW : entryBlock e ++ '\n' :: '\n' :: trimCore (e2 :: rest2) =
            coreBlock e ++ '\n' :: '\n' :: (r0 :: R') := by
          rw [hEB, hRd]
        rw [hW]
        unfold splitSep
        rw [splitGo_append_sep (coreBlock e) []
          (fun i hi => noSep_coreBlock hs0 hs1 he0 he1 htok _ i hi)
          (sepLen_sep2 hr0)]
        rw [show ('\n' :: '\n' :: (r0 :: R')).drop 2 = r0 :: R' from rfl, ← hRd]
        rw [show splitGo (trimCore (e2 :: rest2)) [] = splitSep (trimCore (e2 :: rest2))
          from rfl, hR]
        rfl

/-! ## The serialized file has no carriage return -/

theorem replaceCRLF_cons_ne {c : Char} (rest : List Char) (h : ¬(c = '\r')) :
    replaceCRLF (c :: rest) = c :: replaceCRLF rest := by
  conv_lhs => unfold replaceCRLF
  split
  · next heq =>
    injection heq with h1 _
    exact absurd h1 h
  · rename_i heq2
    injection heq2 with h1 h2
    rw [← h1, ← h2]
  · rename_i heq2
    simp at heq2

theorem replaceCRLF_id {l : List Char} (h : ∀ c ∈ l, ¬(c = '\r')) :
    replaceCRLF l = l := by
  induction l with
  | nil => rfl
  | cons c rest ih =>
    rw [replaceCRLF_cons_ne rest (h c (by simp))]
    rw [ih (fun d hd => h d (by simp [hd]))]

theorem entryBlock_no_cr {e : SrtEntry}
    (hs0 : 0 ≤ e.startTime) (hs1 : e.startTime < 360000000)
    (he0 : 0 ≤ e.endTime) (he1 : e.endTime < 360000000)
    (hcr : ∀ c ∈ e.text, ¬(c = '\r')) :
    ∀ c ∈ entryBlock e, ¬(c = '\r') := by
  intro c hc
  rw [entryBlock_eq] at hc
  rcases List.mem_append.mp hc with h | h
  · intro he
    have hw := intToChars_not_ws h
    rw [he] at hw
    simp [isWs] at hw
  · rcases List.mem_cons.mp h with rfl | h
    · decide
    · rcases List.mem_append.mp h with h | h
      · exact (timeLine_chars e hs0 hs1 he0 he1 c h).2
      · rcases List.mem_cons.mp h with rfl | h
        · decide
        · exact hcr c h

theorem stringify_no_cr :
    ∀ (es : List SrtEntry), (∀ e ∈ es, EntryInv e) →
      ∀ c ∈ stringifySrt es, ¬(c = '\r') := by
  intro es
  induction es with
  | nil =>
    intro _ c hc
    simp [stringifySrt, List.intercalate] at hc
  | cons e rest ih =>
    intro hinv c hc
    obtain ⟨hs0, hs1, he0, he1, _, hcr⟩ := hinv e (by simp)
    cases rest with
    | nil =>
      rw [stringify_single] at hc
      exact entryBlock_no_cr hs0 hs1 he0 he1 hcr c hc
    | cons e2 rest2 =>
      rw [stringify_cons2] at hc
      rcases List.mem_append.mp hc with h | h
      · exact entryBlock_no_cr hs0 hs1 he0 he1 hcr c h
      · rcases List.mem_cons.mp h with rfl | h
        · decide
        · rcases List.mem_cons.mp h with rfl | h
          · decide
          · exact ih (fun x hx => hinv x (by simp [hx])) c h

/-! ## The round trip -/

theorem filterMap_some_id {α : Type _} (f : α → Option α) :
    ∀ (l : List α), (∀ a ∈ l, f a = some a) → l.filterMap f = l := by
  intro l
  induction l with
  | nil => intro _; rfl
  | cons x t ih =>
    intro h
    rw [List.filterMap_cons, h x (by simp)]
    rw [ih (fun a ha => h a (by simp [ha]))]

theorem roundtrip_core (es : List SrtEntry) (hinv : ∀ e ∈ es, EntryInv e) :
    parseSrt (stringifySrt es) = es := by
  cases es with
  | nil => decide
  | cons e0 rest0 =>
    have hne : (e0 :: rest0 : List SrtEntry) ≠ [] := by simp
    show (splitSep (trimL (replaceCRLF (stringifySrt (e0 :: rest0))))).filterMap parseBlock
      = e0 :: rest0
    rw [replaceCRLF_id (fun c hc => stringify_no_cr (e0 :: rest0) hinv c hc)]
    rw [trimL_stringify (e0 :: rest0) hne (fun e he => by
      obtain ⟨h1, h2, h3, h4, h5, _⟩ := hinv e he
      exact ⟨h1, h2, h3, h4, h5⟩)]
    rw [splitSep_trimCore (e0 :: rest0) hne hinv]
    rw [List.filterMap_map]
    refine filterMap_some_id _ _ (fun a ha => ?_)
    obtain ⟨h1, h2, h3, h4, h5, _⟩ := hinv a ha
    exact parseBlock_coreBlock a h1 h2 h3 h4 h5


/-- C2: the parse serialize parse round trip, corrected.  parse(serialize(parse(x)))
equals parse(x) field for field provided every parsed entry has both timestamps
below 360000000 ms (the largest value the fixed two digit hour field can render
back) and no carriage return in its text.  Without the bound the claim fails: an
in pattern but overflowing timestamp such as 99:99:99,999 parses to 362439999 ms
and serializes to the normalized 100:40:39,999, which reparses differently. -/
theorem c2_roundtrip (x : List Char)
    (h : ∀ e ∈ parseSrt x, e.startTime < 360000000 ∧ e.endTime < 360000000 ∧
      ∀ c ∈ e.text, ¬(c = '\r')) :
    parseSrt (stringifySrt (parseSrt x)) = parseSrt x := by
  apply roundtrip_core
  intro e he
  obtain ⟨h1, h2, h3⟩ := parseSrt_inv x e he
  obtain ⟨h4, h5, h6⟩ := h e he
  exact ⟨h1, h4, h2, h5, h3, h6⟩

/-- C2 counterexample to the unconditional round trip law: a block whose timestamp
matches the HH:MM:SS,mmm pattern but overflows the renderable range round trips to
a different entry sequence. -/
theorem c2_counterexample :
    parseSrt (stringifySrt (parseSrt ("1\n99:99:99,999 --> 00:00:00,000\nhi").toList)) ≠
      parseSrt ("1\n99:99:99,999 --> 00:00:00,000\nhi").toList := by decide

/-- Witness for c2_roundtrip at a concrete input. -/
theorem c2_roundtrip_witness :
    (∀ e ∈ parseSrt ("1\n00:00:01,000 --> 00:00:02,500\nhello").toList,
      e.startTime < 360000000 ∧ e.endTime < 360000000 ∧
        ∀ c ∈ e.text, ¬(c = '\r')) ∧
    parseSrt (stringifySrt (parseSrt ("1\n00:00:01,000 --> 00:00:02,500\nhello").toList)) =
      parseSrt ("1\n00:00:01,000 --> 00:00:02,500\nhello").toList :=
  ⟨by decide, c2_roundtrip _ (by decide)⟩


end SrtSplit

